import Mathlib

/-!
Verification of the obsidian-epub-plugin cross-reference subsystem.

Strings of the TypeScript source are modelled as lists of Unicode scalar
values (`List Char`); byte buffers as `List Nat` with values below 256.
Fallible operations (JavaScript exceptions) are modelled with `Option` or
`Except`.
-/

set_option maxHeartbeats 1000000
set_option maxRecDepth 4000

abbrev Str := List Char

/-! ## UTF-8 (TextEncoder / TextDecoder), used by `src/utils.ts` -/

/-- The UTF-8 encoding of one Unicode scalar value, as produced by
`TextEncoder` (`base64UrlEncode`, src/unnamed/part_004 line 9). -/
def utf8EncodeChar (c : Char) : List Nat :=
  if c.toNat < 0x80 then [c.toNat]
  else if c.toNat < 0x800 then [0xC0 + c.toNat / 64, 0x80 + c.toNat % 64]
  else if c.toNat < 0x10000 then
    [0xE0 + c.toNat / 4096, 0x80 + c.toNat / 64 % 64, 0x80 + c.toNat % 64]
  else
    [0xF0 + c.toNat / 262144, 0x80 + c.toNat / 4096 % 64, 0x80 + c.toNat / 64 % 64,
      0x80 + c.toNat % 64]

/-- `new TextEncoder().encode(input)`. -/
def utf8Encode (s : Str) : List Nat := s.flatMap utf8EncodeChar

/-- U+FFFD, the replacement character emitted by a non-fatal `TextDecoder`. -/
def replChar : Char := Char.ofNat 0xFFFD

/-- Is `b` a UTF-8 continuation byte (0x80..0xBF)? -/
def isCont (b : Nat) : Bool := decide (0x80 ≤ b ∧ b ≤ 0xBF)

/-- Lower bound of the first continuation byte for leading byte `b`
(WHATWG UTF-8 decoder). -/
def contLo (b : Nat) : Nat := if b = 0xE0 then 0xA0 else if b = 0xF0 then 0x90 else 0x80

/-- Upper bound of the first continuation byte for leading byte `b`. -/
def contHi (b : Nat) : Nat := if b = 0xED then 0x9F else if b = 0xF4 then 0x8F else 0xBF

/-- Is `c` an acceptable first continuation byte after leading byte `b`? -/
def isContFor (b c : Nat) : Bool := decide (contLo b ≤ c ∧ c ≤ contHi b)

/-- `new TextDecoder().decode(bytes)` with the default non-fatal error mode:
invalid sequences are replaced by U+FFFD, the function is total
(`base64UrlDecode`, src/unnamed/part_004 line 22). -/
def utf8DecodeLenient : List Nat → List Char
  | [] => []
  | b :: rest =>
    if b < 0x80 then Char.ofNat b :: utf8DecodeLenient rest
    else if 0xC2 ≤ b ∧ b ≤ 0xDF then
      match rest with
      | [] => [replChar]
      | c1 :: rest1 =>
        if isCont c1 then
          Char.ofNat ((b - 0xC0) * 64 + (c1 - 0x80)) :: utf8DecodeLenient rest1
        else replChar :: utf8DecodeLenient (c1 :: rest1)
    else if 0xE0 ≤ b ∧ b ≤ 0xEF then
      match rest with
      | [] => [replChar]
      | c1 :: rest1 =>
        if isContFor b c1 then
          match rest1 with
          | [] => [replChar]
          | c2 :: rest2 =>
            if isCont c2 then
              Char.ofNat ((b - 0xE0) * 4096 + (c1 - 0x80) * 64 + (c2 - 0x80)) ::
                utf8DecodeLenient rest2
            else replChar :: utf8DecodeLenient (c2 :: rest2)
        else replChar :: utf8DecodeLenient (c1 :: rest1)
    else if 0xF0 ≤ b ∧ b ≤ 0xF4 then
      match rest with
      | [] => [replChar]
      | c1 :: rest1 =>
        if isContFor b c1 then
          match rest1 with
          | [] => [replChar]
          | c2 :: rest2 =>
            if isCont c2 then
              match rest2 with
              | [] => [replChar]
              | c3 :: rest3 =>
                if isCont c3 then
                  Char.ofNat ((b - 0xF0) * 262144 + (c1 - 0x80) * 4096 +
                      (c2 - 0x80) * 64 + (c3 - 0x80)) :: utf8DecodeLenient rest3
                else replChar :: utf8DecodeLenient (c3 :: rest3)
            else replChar :: utf8DecodeLenient (c2 :: rest2)
        else replChar :: utf8DecodeLenient (c1 :: rest1)
    else replChar :: utf8DecodeLenient rest

theorem char_toNat_lt (c : Char) : c.toNat < 0x110000 := by
  have h := c.valid
  rcases h with h | h
  · exact Nat.lt_trans h (by norm_num)
  · exact h.2

theorem char_toNat_not_surrogate (c : Char) : ¬ (0xD800 ≤ c.toNat ∧ c.toNat ≤ 0xDFFF) := by
  have h := c.valid
  have h2 : c.toNat = c.val.toNat := rfl
  rcases h with h | h <;> omega

theorem char_toNat_ofNat {n : Nat} (h : n.isValidChar) : (Char.ofNat n).toNat = n := by
  rw [Char.ofNat, dif_pos h]
  rfl

theorem char_ofNat_toNat (c : Char) : Char.ofNat c.toNat = c := by
  apply Char.eq_of_val_eq
  rw [Char.ofNat, dif_pos (show c.toNat.isValidChar from c.valid)]
  rfl

theorem utf8DecodeLenient_encodeChar (c : Char) (tail : List Nat) :
    utf8DecodeLenient (utf8EncodeChar c ++ tail) = c :: utf8DecodeLenient tail := by
  have hlt := char_toNat_lt c
  have hsur := char_toNat_not_surrogate c
  unfold utf8EncodeChar
  by_cases h1 : c.toNat < 0x80
  · simp only [h1, if_true, List.cons_append, List.nil_append]
    rw [utf8DecodeLenient.eq_def]
    simp only []
    rw [if_pos h1, char_ofNat_toNat]
  · by_cases h2 : c.toNat < 0x800
    · simp only [h1, h2, if_false, if_true, List.cons_append, List.nil_append]
      rw [utf8DecodeLenient.eq_def]
      simp only []
      rw [if_neg (by omega), if_pos (by omega)]
      simp only [isCont, decide_eq_true_eq]
      rw [if_pos (by omega)]
      have : (0xC0 + c.toNat / 64 - 0xC0) * 64 + (0x80 + c.toNat % 64 - 0x80) = c.toNat := by
        omega
      rw [this, char_ofNat_toNat]
    · by_cases h3 : c.toNat < 0x10000
      · simp only [h1, h2, h3, if_false, if_true, List.cons_append, List.nil_append]
        rw [utf8DecodeLenient.eq_def]
        simp only []
        rw [if_neg (by omega), if_neg (by omega), if_pos (by omega)]
        simp only [isContFor, contLo, contHi, isCont, decide_eq_true_eq]
        rw [if_pos ?hc1]
        case hc1 =>
          constructor
          · split
            · next he => omega
            · split
              · next he => omega
              · omega
          · split
            · next he => omega
            · split
              · next he => omega
              · omega
        rw [if_pos (by omega)]
        have : (0xE0 + c.toNat / 4096 - 0xE0) * 4096 + (0x80 + c.toNat / 64 % 64 - 0x80) * 64 +
            (0x80 + c.toNat % 64 - 0x80) = c.toNat := by omega
        rw [this, char_ofNat_toNat]
      · simp only [h1, h2, h3, if_false, List.cons_append, List.nil_append]
        rw [utf8DecodeLenient.eq_def]
        simp only []
        rw [if_neg (by omega), if_neg (by omega), if_neg (by omega), if_pos (by omega)]
        simp only [isContFor, contLo, contHi, isCont, decide_eq_true_eq]
        rw [if_pos ?hc1]
        case hc1 =>
          constructor
          · split
            · next he => omega
            · split
              · next he => omega
              · omega
          · split
            · next he => omega
            · split
              · next he => omega
              · omega
        rw [if_pos (by omega), if_pos (by omega)]
        have : (0xF0 + c.toNat / 262144 - 0xF0) * 262144 +
            (0x80 + c.toNat / 4096 % 64 - 0x80) * 4096 +
            (0x80 + c.toNat / 64 % 64 - 0x80) * 64 + (0x80 + c.toNat % 64 - 0x80) = c.toNat := by
          omega
        rw [this, char_ofNat_toNat]

theorem utf8DecodeLenient_encode (s : Str) : utf8DecodeLenient (utf8Encode s) = s := by
  induction s with
  | nil => rfl
  | cons c cs ih =>
    have : utf8Encode (c :: cs) = utf8EncodeChar c ++ utf8Encode cs := by
      simp [utf8Encode]
    rw [this, utf8DecodeLenient_encodeChar, ih]

theorem utf8EncodeChar_lt_256 (c : Char) : ∀ x ∈ utf8EncodeChar c, x < 256 := by
  have hlt := char_toNat_lt c
  intro x hx
  unfold utf8EncodeChar at hx
  split at hx
  · simp at hx; omega
  · split at hx
    · simp at hx; rcases hx with h | h <;> omega
    · split at hx
      · simp at hx; rcases hx with h | h | h <;> omega
      · simp at hx; rcases hx with h | h | h | h <;> omega

theorem utf8Encode_lt_256 (s : Str) : ∀ x ∈ utf8Encode s, x < 256 := by
  intro x hx
  simp only [utf8Encode, List.mem_flatMap] at hx
  obtain ⟨c, _, hc⟩ := hx
  exact utf8EncodeChar_lt_256 c x hc

/-! ## Base64 (btoa / atob) and the URL-safe token codec of src/utils.ts -/

/-- The standard base64 alphabet character for a 6-bit value. -/
def b64Char (n : Nat) : Char :=
  if n < 26 then Char.ofNat (65 + n)
  else if n < 52 then Char.ofNat (97 + (n - 26))
  else if n < 62 then Char.ofNat (48 + (n - 52))
  else if n = 62 then Char.ofNat 43 else Char.ofNat 47

/-- The 6-bit value of a standard base64 alphabet character. -/
def b64Val (c : Char) : Option Nat :=
  if 65 ≤ c.toNat ∧ c.toNat ≤ 90 then some (c.toNat - 65)
  else if 97 ≤ c.toNat ∧ c.toNat ≤ 122 then some (26 + (c.toNat - 97))
  else if 48 ≤ c.toNat ∧ c.toNat ≤ 57 then some (52 + (c.toNat - 48))
  else if c.toNat = 43 then some 62
  else if c.toNat = 47 then some 63
  else none

/-- `btoa(binary)`: standard base64 with `=` padding, over a byte list
(the code builds `binary` from the UTF-8 bytes via `String.fromCharCode`). -/
def btoa : List Nat → Str
  | [] => []
  | [a] => [b64Char (a / 4), b64Char (a % 4 * 16), '=', '=']
  | [a, b] => [b64Char (a / 4), b64Char (a % 4 * 16 + b / 16), b64Char (b % 16 * 4), '=']
  | a :: b :: c :: rest =>
    b64Char (a / 4) :: b64Char (a % 4 * 16 + b / 16) :: b64Char (b % 16 * 4 + c / 64) ::
      b64Char (c % 64) :: btoa rest

/-- The sextet stream of `btoa` (proof-side decomposition of `btoa`). -/
def b64Sextets : List Nat → List Nat
  | [] => []
  | [a] => [a / 4, a % 4 * 16]
  | [a, b] => [a / 4, a % 4 * 16 + b / 16, b % 16 * 4]
  | a :: b :: c :: rest =>
    a / 4 :: (a % 4 * 16 + b / 16) :: (b % 16 * 4 + c / 64) :: c % 64 :: b64Sextets rest

/-- Number of `=` padding characters `btoa` appends. -/
def b64PadLen : List Nat → Nat
  | [] => 0
  | [_] => 2
  | [_, _] => 1
  | _ :: _ :: _ :: rest => b64PadLen rest

/-- Reassemble bytes from a sextet stream, discarding leftover bits
(forgiving-base64 step of `atob`). -/
def b64Bytes : List Nat → List Nat
  | v1 :: v2 :: v3 :: v4 :: rest =>
    (v1 * 4 + v2 / 16) :: (v2 % 16 * 16 + v3 / 4) :: (v3 % 4 * 64 + v4) :: b64Bytes rest
  | [v1, v2] => [v1 * 4 + v2 / 16]
  | [v1, v2, v3] => [v1 * 4 + v2 / 16, v2 % 16 * 16 + v3 / 4]
  | _ => []

/-- ASCII whitespace stripped by forgiving-base64 (`atob`). -/
def isB64Ws (c : Char) : Bool :=
  decide (c.toNat = 9 ∨ c.toNat = 10 ∨ c.toNat = 12 ∨ c.toNat = 13 ∨ c.toNat = 32)

/-- Padding removal step of forgiving-base64: when the length is a multiple
of four, drop one or two trailing `=`. -/
def stripPad (l : Str) : Str :=
  if l.length % 4 = 0 then
    match l.reverse with
    | [] => l
    | c1 :: r1 =>
      if c1 = '=' then
        match r1 with
        | c2 :: r2 => if c2 = '=' then r2.reverse else r1.reverse
        | [] => r1.reverse
      else l
  else l

/-- `atob(data)` per the WHATWG forgiving-base64 decode: strip ASCII
whitespace, strip permissible `=` padding, fail (`InvalidCharacterError`)
when the remaining length is 1 mod 4 or a character is outside the base64
alphabet, otherwise decode sextets and discard leftover bits. -/
def atob (input : Str) : Option (List Nat) :=
  if (stripPad (input.filter (fun c => !(isB64Ws c)))).length % 4 = 1 then none
  else if (stripPad (input.filter (fun c => !(isB64Ws c)))).all (fun c => (b64Val c).isSome) then
    some (b64Bytes ((stripPad (input.filter (fun c => !(isB64Ws c)))).filterMap b64Val))
  else none

/-- The `+` to `-` and `/` to `_` remapping of `base64UrlEncode`
(src/unnamed/part_004 line 13). -/
def remapEnc (c : Char) : Char := if c = '+' then '-' else if c = '/' then '_' else c

/-- The `-` to `+` and `_` to `/` remapping of `base64UrlDecode`
(src/unnamed/part_004 line 17). -/
def remapDec (c : Char) : Char := if c = '-' then '+' else if c = '_' then '/' else c

/-- The `/=+$/` strip of `base64UrlEncode`: remove the trailing run of `=`. -/
def dropTrailingEq (l : Str) : Str := (l.reverse.dropWhile (fun c => c == '=')).reverse

/-- `base64UrlEncode` (src/unnamed/part_004 lines 8-14): UTF-8 encode,
`btoa`, remap `+` `/` to `-` `_`, strip trailing `=`. -/
def base64UrlEncode (s : Str) : Str := dropTrailingEq ((btoa (utf8Encode s)).map remapEnc)

/-- `base64UrlDecode` (src/unnamed/part_004 lines 16-23): remap `-` `_`
back, pad with `=` to a multiple of four, `atob` (which can throw, hence
`Option`), then decode the bytes with a non-fatal `TextDecoder`. -/
def base64UrlDecode (t : Str) : Option Str :=
  (atob (t.map remapDec ++
    List.replicate ((4 - (t.map remapDec).length % 4) % 4) '=')).map utf8DecodeLenient

/-- Induction along the 3-byte chunks consumed by `btoa`. -/
theorem chunk3_ind (P : List Nat → Prop) (h0 : P []) (h1 : ∀ a, P [a]) (h2 : ∀ a b, P [a, b])
    (h3 : ∀ a b c rest, P rest → P (a :: b :: c :: rest)) : ∀ l, P l
  | [] => h0
  | [a] => h1 a
  | [a, b] => h2 a b
  | a :: b :: c :: rest => h3 a b c rest (chunk3_ind P h0 h1 h2 h3 rest)

theorem char_eq_of_toNat_eq {c d : Char} (h : c.toNat = d.toNat) : c = d := by
  rw [← char_ofNat_toNat c, ← char_ofNat_toNat d, h]

theorem char_ne_of_toNat_ne {c d : Char} (h : c.toNat ≠ d.toNat) : c ≠ d :=
  fun he => h (by rw [he])

theorem b64Char_range (v : Nat) (h : v < 64) :
    (b64Char v).toNat = 43 ∨ (b64Char v).toNat = 47 ∨
    (48 ≤ (b64Char v).toNat ∧ (b64Char v).toNat ≤ 57) ∨
    (65 ≤ (b64Char v).toNat ∧ (b64Char v).toNat ≤ 90) ∨
    (97 ≤ (b64Char v).toNat ∧ (b64Char v).toNat ≤ 122) := by
  unfold b64Char
  split_ifs with hA hB hC hD
  · rw [char_toNat_ofNat (Or.inl (by omega))]; omega
  · rw [char_toNat_ofNat (Or.inl (by omega))]; omega
  · rw [char_toNat_ofNat (Or.inl (by omega))]; omega
  · rw [char_toNat_ofNat (Or.inl (by omega))]; omega
  · rw [char_toNat_ofNat (Or.inl (by omega))]; omega

theorem b64Val_b64Char (v : Nat) (h : v < 64) : b64Val (b64Char v) = some v := by
  unfold b64Char
  split_ifs with hA hB hC hD
  · unfold b64Val
    rw [char_toNat_ofNat (Or.inl (by omega))]
    rw [if_pos (by omega)]
    congr 1
    omega
  · unfold b64Val
    rw [char_toNat_ofNat (Or.inl (by omega))]
    rw [if_neg (by omega), if_pos (by omega)]
    congr 1
    omega
  · unfold b64Val
    rw [char_toNat_ofNat (Or.inl (by omega))]
    rw [if_neg (by omega), if_neg (by omega), if_pos (by omega)]
    congr 1
    omega
  · unfold b64Val
    rw [char_toNat_ofNat (Or.inl (by omega))]
    rw [if_neg (by omega), if_neg (by omega), if_neg (by omega), if_pos (by omega)]
    congr 1
    omega
  · unfold b64Val
    rw [char_toNat_ofNat (Or.inl (by omega))]
    rw [if_neg (by omega), if_neg (by omega), if_neg (by omega), if_neg (by omega),
      if_pos (by omega)]
    congr 1
    omega

theorem btoa_eq (bytes : List Nat) :
    btoa bytes = (b64Sextets bytes).map b64Char ++ List.replicate (b64PadLen bytes) '=' := by
  induction bytes using chunk3_ind with
  | h0 => rfl
  | h1 a => rfl
  | h2 a b => rfl
  | h3 a b c rest ih =>
    simp only [btoa, b64Sextets, b64PadLen, List.map_cons, List.cons_append, ih]

theorem b64Sextets_lt_64 (bytes : List Nat) (h : ∀ x ∈ bytes, x < 256) :
    ∀ v ∈ b64Sextets bytes, v < 64 := by
  induction bytes using chunk3_ind with
  | h0 => intro v hv; simp [b64Sextets] at hv
  | h1 a =>
    intro v hv
    have ha := h a (by simp)
    simp [b64Sextets] at hv
    rcases hv with hv | hv <;> omega
  | h2 a b =>
    intro v hv
    have ha := h a (by simp)
    have hb := h b (by simp)
    simp [b64Sextets] at hv
    rcases hv with hv | hv | hv <;> omega
  | h3 a b c rest ih =>
    intro v hv
    have ha := h a (by simp)
    have hb := h b (by simp)
    have hc := h c (by simp)
    simp only [b64Sextets, List.mem_cons] at hv
    rcases hv with hv | hv | hv | hv | hv
    · omega
    · omega
    · omega
    · omega
    · exact ih (fun x hx => h x (by simp [hx])) v hv

theorem b64PadLen_le (bytes : List Nat) :
    b64PadLen bytes ≤ 2 ∧ ((b64Sextets bytes).length + b64PadLen bytes) % 4 = 0 := by
  induction bytes using chunk3_ind with
  | h0 => simp [b64PadLen, b64Sextets]
  | h1 a => simp [b64PadLen, b64Sextets]
  | h2 a b => simp [b64PadLen, b64Sextets]
  | h3 a b c rest ih =>
    simp only [b64PadLen, b64Sextets, List.length_cons]
    exact ⟨ih.1, by omega⟩

theorem b64Bytes_sextets (bytes : List Nat) (h : ∀ x ∈ bytes, x < 256) :
    b64Bytes (b64Sextets bytes) = bytes := by
  induction bytes using chunk3_ind with
  | h0 => rfl
  | h1 a =>
    have ha := h a (by simp)
    simp only [b64Sextets, b64Bytes]
    congr 1
    omega
  | h2 a b =>
    have ha := h a (by simp)
    have hb := h b (by simp)
    simp only [b64Sextets, b64Bytes]
    congr 1
    · omega
    · congr 1
      omega
  | h3 a b c rest ih =>
    have ha := h a (by simp)
    have hb := h b (by simp)
    have hc := h c (by simp)
    simp only [b64Sextets, b64Bytes]
    congr 1
    · omega
    · congr 1
      · omega
      · congr 1
        · omega
        · exact ih (fun x hx => h x (by simp [hx]))

theorem b64Char_ne_eq (v : Nat) (h : v < 64) : b64Char v ≠ '=' := by
  have hr := b64Char_range v h
  apply char_ne_of_toNat_ne
  have he : ('=').toNat = 61 := rfl
  rw [he]
  rcases hr with hr | hr | hr | hr | hr <;> omega

theorem b64Char_not_ws (v : Nat) (h : v < 64) : isB64Ws (b64Char v) = false := by
  have hr := b64Char_range v h
  simp only [isB64Ws, decide_eq_false_iff_not]
  rcases hr with hr | hr | hr | hr | hr <;> omega

theorem remapDec_remapEnc_b64Char (v : Nat) (h : v < 64) :
    remapDec (remapEnc (b64Char v)) = b64Char v := by
  have hr := b64Char_range v h
  unfold remapEnc
  by_cases h1 : b64Char v = '+'
  · rw [if_pos h1, h1]
    rfl
  · rw [if_neg h1]
    by_cases h2 : b64Char v = '/'
    · rw [if_pos h2, h2]
      rfl
    · rw [if_neg h2]
      unfold remapDec
      rw [if_neg ?hm, if_neg ?hu]
      case hm =>
        apply char_ne_of_toNat_ne
        have hd : ('-').toNat = 45 := rfl
        rw [hd]
        rcases hr with hr | hr | hr | hr | hr <;> omega
      case hu =>
        apply char_ne_of_toNat_ne
        have hd : ('_').toNat = 95 := rfl
        rw [hd]
        rcases hr with hr | hr | hr | hr | hr <;> omega

theorem remapEnc_b64Char_ne_eq (v : Nat) (h : v < 64) : remapEnc (b64Char v) ≠ '=' := by
  unfold remapEnc
  by_cases h1 : b64Char v = '+'
  · rw [if_pos h1]
    decide
  · rw [if_neg h1]
    by_cases h2 : b64Char v = '/'
    · rw [if_pos h2]
      decide
    · rw [if_neg h2]
      exact b64Char_ne_eq v h

theorem dropTrailingEq_append_replicate (body : Str) (t : Nat) (h : ∀ c ∈ body, c ≠ '=') :
    dropTrailingEq (body ++ List.replicate t '=') = body := by
  unfold dropTrailingEq
  rw [List.reverse_append, List.reverse_replicate]
  have hdrop : List.dropWhile (fun c => c == '=') (List.replicate t '=' ++ body.reverse) =
      body.reverse := by
    induction t with
    | zero =>
      simp only [List.replicate, List.nil_append]
      cases hb : body.reverse with
      | nil => simp
      | cons x tl =>
        have hx : x ∈ body := by
          rw [← List.mem_reverse, hb]
          exact List.mem_cons_self x tl
        rw [List.dropWhile_cons, if_neg (by simp [h x hx])]
    | succ k ih =>
      simp only [List.replicate_succ, List.cons_append, List.dropWhile_cons]
      rw [if_pos (by simp)]
      exact ih
  rw [hdrop, List.reverse_reverse]

theorem stripPad_append_replicate (body : Str) (t : Nat) (hne : ∀ c ∈ body, c ≠ '=')
    (ht : t ≤ 2) (hlen : (body.length + t) % 4 = 0) :
    stripPad (body ++ List.replicate t '=') = body := by
  interval_cases t
  · simp only [List.replicate, List.append_nil]
    unfold stripPad
    rw [if_pos (by omega)]
    cases hb : body.reverse with
    | nil => rfl
    | cons c1 r1 =>
      have hc1 : c1 ∈ body := by
        rw [← List.mem_reverse, hb]
        exact List.mem_cons_self c1 r1
      simp only []
      rw [if_neg (hne c1 hc1)]
  · unfold stripPad
    rw [if_pos (by simp; omega)]
    have hrev : (body ++ List.replicate 1 '=').reverse = '=' :: body.reverse := by
      simp
    rw [hrev]
    simp only []
    rw [if_pos trivial]
    cases hb : body.reverse with
    | nil =>
      exfalso
      have : body = [] := by
        rw [← List.reverse_reverse body, hb]
        rfl
      rw [this] at hlen
      simp at hlen
    | cons c2 r2 =>
      have hc2 : c2 ∈ body := by
        rw [← List.mem_reverse, hb]
        exact List.mem_cons_self c2 r2
      simp only []
      rw [if_neg (hne c2 hc2), ← hb, List.reverse_reverse]
  · unfold stripPad
    rw [if_pos (by simp; omega)]
    have hrev : (body ++ List.replicate 2 '=').reverse = '=' :: '=' :: body.reverse := by
      simp
    rw [hrev]
    simp only []
    rw [if_pos trivial, if_pos trivial, List.reverse_reverse]

theorem filterMap_b64Val_map (vs : List Nat) (h : ∀ v ∈ vs, v < 64) :
    (vs.map b64Char).filterMap b64Val = vs := by
  induction vs with
  | nil => rfl
  | cons v rest ih =>
    simp only [List.map_cons, List.filterMap_cons]
    rw [b64Val_b64Char v (h v (by simp))]
    rw [ih (fun x hx => h x (by simp [hx]))]

theorem atob_btoa (bytes : List Nat) (h : ∀ x ∈ bytes, x < 256) :
    atob (btoa bytes) = some bytes := by
  have hsx := b64Sextets_lt_64 bytes h
  have hpl := b64PadLen_le bytes
  rw [btoa_eq]
  unfold atob
  have hfil : ((b64Sextets bytes).map b64Char ++ List.replicate (b64PadLen bytes) '=').filter
      (fun c => !(isB64Ws c)) =
      (b64Sextets bytes).map b64Char ++ List.replicate (b64PadLen bytes) '=' := by
    rw [List.filter_eq_self]
    intro a ha
    rw [List.mem_append] at ha
    rcases ha with ha | ha
    · rw [List.mem_map] at ha
      obtain ⟨v, hv, rfl⟩ := ha
      simp [b64Char_not_ws v (hsx v hv)]
    · rw [List.eq_of_mem_replicate ha]
      decide
  rw [hfil]
  have hstrip : stripPad ((b64Sextets bytes).map b64Char ++ List.replicate (b64PadLen bytes) '=') =
      (b64Sextets bytes).map b64Char := by
    apply stripPad_append_replicate
    · intro c hc
      rw [List.mem_map] at hc
      obtain ⟨v, hv, rfl⟩ := hc
      exact b64Char_ne_eq v (hsx v hv)
    · exact hpl.1
    · rw [List.length_map]
      exact hpl.2
  rw [hstrip]
  rw [if_neg (by rw [List.length_map]; omega)]
  rw [if_pos ?hall]
  case hall =>
    rw [List.all_eq_true]
    intro c hc
    rw [List.mem_map] at hc
    obtain ⟨v, hv, rfl⟩ := hc
    rw [b64Val_b64Char v (hsx v hv)]
    rfl
  rw [filterMap_b64Val_map _ hsx, b64Bytes_sextets bytes h]

theorem base64UrlEncode_eq (s : Str) :
    base64UrlEncode s = ((b64Sextets (utf8Encode s)).map b64Char).map remapEnc := by
  unfold base64UrlEncode
  rw [btoa_eq, List.map_append, List.map_replicate]
  have hre : remapEnc '=' = '=' := rfl
  rw [hre]
  apply dropTrailingEq_append_replicate
  intro c hc
  rw [List.mem_map] at hc
  obtain ⟨c0, hc0, rfl⟩ := hc
  rw [List.mem_map] at hc0
  obtain ⟨v, hv, rfl⟩ := hc0
  exact remapEnc_b64Char_ne_eq v (b64Sextets_lt_64 _ (utf8Encode_lt_256 s) v hv)

theorem base64UrlDecode_encode (s : Str) : base64UrlDecode (base64UrlEncode s) = some s := by
  have hb := utf8Encode_lt_256 s
  have hsx := b64Sextets_lt_64 _ hb
  have hpl := b64PadLen_le (utf8Encode s)
  rw [base64UrlEncode_eq]
  unfold base64UrlDecode
  have hmap : (((b64Sextets (utf8Encode s)).map b64Char).map remapEnc).map remapDec =
      (b64Sextets (utf8Encode s)).map b64Char := by
    rw [List.map_map, List.map_map]
    apply List.map_congr_left
    intro v hv
    exact remapDec_remapEnc_b64Char v (hsx v hv)
  rw [hmap]
  have hpad : (4 - ((b64Sextets (utf8Encode s)).map b64Char).length % 4) % 4 =
      b64PadLen (utf8Encode s) := by
    rw [List.length_map]
    omega
  rw [hpad, ← btoa_eq, atob_btoa _ hb]
  simp [utf8DecodeLenient_encode]

/-- C1: the range-token codec is reversible — for every string s (including
the empty string, non-ASCII strings, and strings containing `+`, `/`, `=`),
`base64UrlDecode (base64UrlEncode s) = s`; and for every well-formed token t
(a token produced by the codec, which per the data model is the only way
tokens arise), `base64UrlEncode (base64UrlDecode t) = t`. -/
theorem c1_codec_round_trip :
    (∀ s : Str, base64UrlDecode (base64UrlEncode s) = some s) ∧
    (∀ t : Str, (∃ s : Str, base64UrlEncode s = t) →
      ∃ r : Str, base64UrlDecode t = some r ∧ base64UrlEncode r = t) := by
  refine ⟨base64UrlDecode_encode, ?_⟩
  rintro t ⟨s, rfl⟩
  exact ⟨s, base64UrlDecode_encode s, rfl⟩

/-- Witness for C1: the token `QQ` is well formed (it encodes `A`), and the
round trips hold at the concrete inputs. -/
theorem c1_codec_round_trip_witness :
    base64UrlDecode (base64UrlEncode ['é', '+', '/', '=']) = some ['é', '+', '/', '='] ∧
    ∃ r : Str, base64UrlDecode ['Q', 'Q'] = some r ∧ base64UrlEncode r = ['Q', 'Q'] :=
  ⟨c1_codec_round_trip.1 ['é', '+', '/', '='],
   c1_codec_round_trip.2 ['Q', 'Q'] ⟨['A'], by decide⟩⟩

/-! ## BacklinkManager (src/src/BacklinkManager.ts) -/

/-- A character of the token alphabet `[A-Za-z0-9_-]`. -/
def tokenChar (c : Char) : Bool := c.isAlpha || c.isDigit || c == '_' || c == '-'

/-- All matches of the regex `PAT([A-Za-z0-9_-]+)` over a string, scanned
left to right and non-overlapping, exactly as `RegExp.exec` with the `g`
flag produces them (`CFI64_REGEX`, src/src/BacklinkManager.ts line 10, with
PAT the literal `#cfi64=`; `parseEpubCfi64Link` matches `cfi64=` without
`g`, i.e. the head of this list). -/
def extractTokensAfterAux (pat : Str) : Nat → Str → List Str
  | _, [] => []
  | 0, _ :: _ => []
  | fuel + 1, c :: rest =>
    if pat <+: (c :: rest) then
      if ((c :: rest).drop pat.length).takeWhile tokenChar = [] then
        extractTokensAfterAux pat fuel rest
      else
        ((c :: rest).drop pat.length).takeWhile tokenChar ::
          extractTokensAfterAux pat fuel (((c :: rest).drop pat.length).dropWhile tokenChar)
    else extractTokensAfterAux pat fuel rest

/-- Entry point: the scan consumes at least one character per step, so a
fuel of `s.length` always suffices. -/
def extractTokensAfter (pat s : Str) : List Str := extractTokensAfterAux pat s.length s

/-- `s.indexOf(pat) !== -1`: `pat` occurs as a contiguous substring. -/
def containsSeq (pat s : Str) : Bool := decide (pat <:+: s)

/-- One entry of `[...(cache.links ?? []), ...(cache.embeds ?? [])]` as
consumed by `getHighlightsForBook`: whether `getFirstLinkpathDest` resolved
it to the open book (line 46-47), its raw `original` text and its
`displayText` (both possibly absent). -/
structure LinkItem where
  resolvedToBook : Bool
  original : Option Str
  displayText : Option Str
deriving DecidableEq

/-- A coarse candidate note (a source file of `resolvedLinks` whose
resolved destinations include the book, lines 25-32), with its metadata
cache availability and link items. -/
structure CandidateNote where
  id : Nat
  basename : Str
  hasCache : Bool
  items : List LinkItem
deriving DecidableEq

/-- `BacklinkHighlight` (src/src/BacklinkManager.ts lines 4-8); the source
note file is identified by the candidate id. -/
structure BacklinkHighlight where
  cfiRange : Str
  sourceId : Nat
  display : Str
deriving DecidableEq

/-- The `while ((m = CFI64_REGEX.exec(original)) !== null)` loop
(src/src/BacklinkManager.ts lines 55-69): global dedup via `seenEncoded`,
decode failure caught and ignored (`catch`), early return once `limit`
descriptors are collected (the returned Bool signals the early return). -/
def procTokens (sourceId : Nat) (display : Str) (limit : Nat) :
    List Str → List Str → List BacklinkHighlight →
      List Str × List BacklinkHighlight × Bool
  | [], seen, results => (seen, results, false)
  | tok :: toks, seen, results =>
    if tok ∈ seen then procTokens sourceId display limit toks seen results
    else
      match base64UrlDecode tok with
      | some cfiRange =>
        if limit ≤ (results ++ [BacklinkHighlight.mk cfiRange sourceId display]).length then
          (seen ++ [tok], results ++ [BacklinkHighlight.mk cfiRange sourceId display], true)
        else
          procTokens sourceId display limit toks (seen ++ [tok])
            (results ++ [BacklinkHighlight.mk cfiRange sourceId display])
      | none => procTokens sourceId display limit toks (seen ++ [tok]) results

/-- The literal `#cfi64=` key searched by `CFI64_REGEX` and `indexOf`. -/
def cfi64Pat : Str := "#cfi64=".toList

/-- The `for (const item of items)` loop (lines 44-70): skip items not
resolving to the book, skip items without `original` or without a
`#cfi64=` occurrence, default the display to the note basename. -/
def procItems (sourceId : Nat) (basename : Str) (limit : Nat) :
    List LinkItem → List Str → List BacklinkHighlight →
      List Str × List BacklinkHighlight × Bool
  | [], seen, results => (seen, results, false)
  | item :: items, seen, results =>
    if item.resolvedToBook then
      match item.original with
      | some o =>
        if containsSeq cfi64Pat o then
          let r := procTokens sourceId (item.displayText.getD basename) limit
            (extractTokensAfter cfi64Pat o) seen results
          if r.2.2 then r
          else procItems sourceId basename limit items r.1 r.2.1
        else procItems sourceId basename limit items seen results
      | none => procItems sourceId basename limit items seen results
    else procItems sourceId basename limit items seen results

/-- The `for (const sourceFile of candidates)` loop (lines 37-71): skip
candidates without a metadata cache, thread the global `seenEncoded` set
and the accumulated results, stop at the early return. -/
def procCandidates (limit : Nat) :
    List CandidateNote → List Str → List BacklinkHighlight → List BacklinkHighlight
  | [], _, results => results
  | cand :: cands, seen, results =>
    if cand.hasCache then
      let r := procItems cand.id cand.basename limit cand.items seen results
      if r.2.2 then r.2.1
      else procCandidates limit cands r.1 r.2.1
    else procCandidates limit cands seen results

/-- `getHighlightsForBook(bookFile, limit = 200)` (src/src/BacklinkManager.ts
lines 20-74). The coarse `resolvedLinks` filter and `getFirstLinkpathDest`
are metadataCache collaborators; their outcome is the given candidate list
and each item's `resolvedToBook` flag. -/
def getHighlightsForBook (candidates : List CandidateNote) (limit : Nat) :
    List BacklinkHighlight :=
  procCandidates limit candidates [] []

/-- Provenance of a descriptor from one candidate: it names the candidate
as source and its range is the decode of a token occurring verbatim (behind
a `#cfi64=` key) in one of the candidate's resolving link items. -/
def tokenProvenance (cand : CandidateNote) (h : BacklinkHighlight) : Prop :=
  h.sourceId = cand.id ∧ ∃ item ∈ cand.items, item.resolvedToBook = true ∧
    ∃ o, item.original = some o ∧
      ∃ tok ∈ extractTokensAfter cfi64Pat o, base64UrlDecode tok = some h.cfiRange

/-- Provenance of a descriptor from the candidate list. -/
def descriptorFrom (cands : List CandidateNote) (h : BacklinkHighlight) : Prop :=
  ∃ cand ∈ cands, cand.hasCache = true ∧ tokenProvenance cand h

theorem procTokens_spec (sourceId : Nat) (display : Str) (limit : Nat) (toks : List Str) :
    ∀ seen results, ∃ new,
      (procTokens sourceId display limit toks seen results).2.1 = results ++ new ∧
      ∀ h ∈ new, h.sourceId = sourceId ∧ h.display = display ∧
        ∃ tok ∈ toks, base64UrlDecode tok = some h.cfiRange := by
  induction toks with
  | nil =>
    intro seen results
    exact ⟨[], by simp [procTokens], by simp⟩
  | cons tok toks ih =>
    intro seen results
    by_cases hmem : tok ∈ seen
    · obtain ⟨new, hn1, hn2⟩ := ih seen results
      refine ⟨new, ?_, ?_⟩
      · simp only [procTokens, if_pos hmem]
        exact hn1
      · intro h hh
        obtain ⟨ha, hb, t0, ht0, hd0⟩ := hn2 h hh
        exact ⟨ha, hb, t0, by simp [ht0], hd0⟩
    · cases hdec : base64UrlDecode tok with
      | some cfiRange =>
        by_cases hlim : limit ≤ (results ++ [BacklinkHighlight.mk cfiRange sourceId display]).length
        · refine ⟨[BacklinkHighlight.mk cfiRange sourceId display], ?_, ?_⟩
          · simp only [procTokens, if_neg hmem, hdec, if_pos hlim]
          · intro h hh
            simp only [List.mem_singleton] at hh
            subst hh
            exact ⟨rfl, rfl, tok, by simp, hdec⟩
        · obtain ⟨new, hn1, hn2⟩ := ih (seen ++ [tok])
            (results ++ [BacklinkHighlight.mk cfiRange sourceId display])
          refine ⟨BacklinkHighlight.mk cfiRange sourceId display :: new, ?_, ?_⟩
          · simp only [procTokens, if_neg hmem, hdec, if_neg hlim]
            rw [hn1]
            simp
          · intro h hh
            rcases List.mem_cons.mp hh with hh | hh
            · subst hh
              exact ⟨rfl, rfl, tok, by simp, hdec⟩
            · obtain ⟨ha, hb, t0, ht0, hd0⟩ := hn2 h hh
              exact ⟨ha, hb, t0, by simp [ht0], hd0⟩
      | none =>
        obtain ⟨new, hn1, hn2⟩ := ih (seen ++ [tok]) results
        refine ⟨new, ?_, ?_⟩
        · simp only [procTokens, if_neg hmem, hdec]
          exact hn1
        · intro h hh
          obtain ⟨ha, hb, t0, ht0, hd0⟩ := hn2 h hh
          exact ⟨ha, hb, t0, by simp [ht0], hd0⟩

theorem procItems_spec (sourceId : Nat) (basename : Str) (limit : Nat) (items : List LinkItem) :
    ∀ seen results, ∃ new,
      (procItems sourceId basename limit items seen results).2.1 = results ++ new ∧
      ∀ h ∈ new, h.sourceId = sourceId ∧ ∃ item ∈ items, item.resolvedToBook = true ∧
        ∃ o, item.original = some o ∧
          ∃ tok ∈ extractTokensAfter cfi64Pat o,
            base64UrlDecode tok = some h.cfiRange := by
  induction items with
  | nil =>
    intro seen results
    exact ⟨[], by simp [procItems], by simp⟩
  | cons item items ih =>
    intro seen results
    by_cases hres : item.resolvedToBook
    · cases horig : item.original with
      | some o =>
        by_cases hcon : containsSeq cfi64Pat o = true
        · set r := procTokens sourceId (item.displayText.getD basename) limit
            (extractTokensAfter cfi64Pat o) seen results with hr
          obtain ⟨newT, hT1, hT2⟩ := procTokens_spec sourceId (item.displayText.getD basename)
            limit (extractTokensAfter cfi64Pat o) seen results
          by_cases hdone : r.2.2
          · refine ⟨newT, ?_, ?_⟩
            · simp only [procItems, if_pos hres, horig, if_pos hcon, ← hr, if_pos hdone]
              exact hT1
            · intro h hh
              obtain ⟨ha, _, t0, ht0, hd0⟩ := hT2 h hh
              exact ⟨ha, item, by simp, hres, o, horig, t0, ht0, hd0⟩
          · obtain ⟨newI, hI1, hI2⟩ := ih r.1 r.2.1
            refine ⟨newT ++ newI, ?_, ?_⟩
            · simp only [procItems, if_pos hres, horig, if_pos hcon, ← hr, if_neg hdone]
              rw [hI1, hT1]
              simp
            · intro h hh
              rcases List.mem_append.mp hh with hh | hh
              · obtain ⟨ha, _, t0, ht0, hd0⟩ := hT2 h hh
                exact ⟨ha, item, by simp, hres, o, horig, t0, ht0, hd0⟩
              · obtain ⟨ha, item0, hitem0, hres0, o0, ho0, t0, ht0, hd0⟩ := hI2 h hh
                exact ⟨ha, item0, by simp [hitem0], hres0, o0, ho0, t0, ht0, hd0⟩
        · obtain ⟨new, hn1, hn2⟩ := ih seen results
          refine ⟨new, ?_, ?_⟩
          · simp only [procItems, if_pos hres, horig, if_neg hcon]
            exact hn1
          · intro h hh
            obtain ⟨ha, item0, hitem0, hres0, o0, ho0, t0, ht0, hd0⟩ := hn2 h hh
            exact ⟨ha, item0, by simp [hitem0], hres0, o0, ho0, t0, ht0, hd0⟩
      | none =>
        obtain ⟨new, hn1, hn2⟩ := ih seen results
        refine ⟨new, ?_, ?_⟩
        · simp only [procItems, if_pos hres, horig]
          exact hn1
        · intro h hh
          obtain ⟨ha, item0, hitem0, hres0, o0, ho0, t0, ht0, hd0⟩ := hn2 h hh
          exact ⟨ha, item0, by simp [hitem0], hres0, o0, ho0, t0, ht0, hd0⟩
    · obtain ⟨new, hn1, hn2⟩ := ih seen results
      refine ⟨new, ?_, ?_⟩
      · simp only [procItems, if_neg hres]
        exact hn1
      · intro h hh
        obtain ⟨ha, item0, hitem0, hres0, o0, ho0, t0, ht0, hd0⟩ := hn2 h hh
        exact ⟨ha, item0, by simp [hitem0], hres0, o0, ho0, t0, ht0, hd0⟩

theorem procCandidates_spec (limit : Nat) (cands : List CandidateNote) :
    ∀ seen results, ∃ new,
      procCandidates limit cands seen results = results ++ new ∧
      ∀ h ∈ new, descriptorFrom cands h := by
  induction cands with
  | nil =>
    intro seen results
    exact ⟨[], by simp [procCandidates], by simp⟩
  | cons cand cands ih =>
    intro seen results
    by_cases hcache : cand.hasCache
    · set r := procItems cand.id cand.basename limit cand.items seen results with hr
      obtain ⟨newI, hI1, hI2⟩ := procItems_spec cand.id cand.basename limit cand.items
        seen results
      by_cases hdone : r.2.2
      · refine ⟨newI, ?_, ?_⟩
        · simp only [procCandidates, if_pos hcache, ← hr, if_pos hdone]
          exact hI1
        · intro h hh
          obtain ⟨ha, hrest⟩ := hI2 h hh
          exact ⟨cand, by simp, hcache, ha, hrest⟩
      · obtain ⟨newC, hC1, hC2⟩ := ih r.1 r.2.1
        refine ⟨newI ++ newC, ?_, ?_⟩
        · simp only [procCandidates, if_pos hcache, ← hr, if_neg hdone]
          rw [hC1, hI1]
          simp
        · intro h hh
          rcases List.mem_append.mp hh with hh | hh
          · obtain ⟨ha, hrest⟩ := hI2 h hh
            exact ⟨cand, by simp, hcache, ha, hrest⟩
          · obtain ⟨cand0, hc0, hcache0, hprov0⟩ := hC2 h hh
            exact ⟨cand0, by simp [hc0], hcache0, hprov0⟩
    · obtain ⟨new, hn1, hn2⟩ := ih seen results
      refine ⟨new, ?_, ?_⟩
      · simp only [procCandidates, if_neg hcache]
        exact hn1
      · intro h hh
        obtain ⟨cand0, hc0, hcache0, hprov0⟩ := hn2 h hh
        exact ⟨cand0, by simp [hc0], hcache0, hprov0⟩

theorem procTokens_bound (sourceId : Nat) (display : Str) (limit : Nat) (toks : List Str) :
    ∀ seen results, results.length < limit →
      (procTokens sourceId display limit toks seen results).2.1.length ≤ limit ∧
      ((procTokens sourceId display limit toks seen results).2.2 = false →
        (procTokens sourceId display limit toks seen results).2.1.length < limit) := by
  induction toks with
  | nil =>
    intro seen results hlt
    simp only [procTokens]
    exact ⟨Nat.le_of_lt hlt, fun _ => hlt⟩
  | cons tok toks ih =>
    intro seen results hlt
    by_cases hmem : tok ∈ seen
    · simp only [procTokens, if_pos hmem]
      exact ih seen results hlt
    · cases hdec : base64UrlDecode tok with
      | some cfiRange =>
        by_cases hlim : limit ≤ (results ++ [BacklinkHighlight.mk cfiRange sourceId display]).length
        · simp only [procTokens, if_neg hmem, hdec, if_pos hlim]
          simp only [List.length_append, List.length_cons, List.length_nil]
          constructor
          · omega
          · intro hf
            exact absurd hf (by simp)
        · simp only [procTokens, if_neg hmem, hdec, if_neg hlim]
          apply ih
          simp only [List.length_append, List.length_cons, List.length_nil] at hlim ⊢
          omega
      | none =>
        simp only [procTokens, if_neg hmem, hdec]
        exact ih (seen ++ [tok]) results hlt

theorem procItems_bound (sourceId : Nat) (basename : Str) (limit : Nat) (items : List LinkItem) :
    ∀ seen results, results.length < limit →
      (procItems sourceId basename limit items seen results).2.1.length ≤ limit ∧
      ((procItems sourceId basename limit items seen results).2.2 = false →
        (procItems sourceId basename limit items seen results).2.1.length < limit) := by
  induction items with
  | nil =>
    intro seen results hlt
    simp only [procItems]
    exact ⟨Nat.le_of_lt hlt, fun _ => hlt⟩
  | cons item items ih =>
    intro seen results hlt
    by_cases hres : item.resolvedToBook
    · cases horig : item.original with
      | some o =>
        by_cases hcon : containsSeq cfi64Pat o = true
        · have hT := procTokens_bound sourceId (item.displayText.getD basename) limit
            (extractTokensAfter cfi64Pat o) seen results hlt
          by_cases hdone : (procTokens sourceId (item.displayText.getD basename) limit
              (extractTokensAfter cfi64Pat o) seen results).2.2
          · simp only [procItems, if_pos hres, horig, if_pos hcon, if_pos hdone]
            refine ⟨hT.1, fun hf => ?_⟩
            rw [hf] at hdone
            cases hdone
          · simp only [procItems, if_pos hres, horig, if_pos hcon, if_neg hdone]
            apply ih
            exact hT.2 (by simpa using hdone)
        · simp only [procItems, if_pos hres, horig, if_neg hcon]
          exact ih seen results hlt
      | none =>
        simp only [procItems, if_pos hres, horig]
        exact ih seen results hlt
    · simp only [procItems, if_neg hres]
      exact ih seen results hlt

theorem procCandidates_bound (limit : Nat) (cands : List CandidateNote) :
    ∀ seen results, results.length < limit →
      (procCandidates limit cands seen results).length ≤ limit := by
  induction cands with
  | nil =>
    intro seen results hlt
    simp only [procCandidates]
    exact Nat.le_of_lt hlt
  | cons cand cands ih =>
    intro seen results hlt
    by_cases hcache : cand.hasCache
    · have hI := procItems_bound cand.id cand.basename limit cand.items seen results hlt
      by_cases hdone : (procItems cand.id cand.basename limit cand.items seen results).2.2
      · simp only [procCandidates, if_pos hcache, if_pos hdone]
        exact hI.1
      · simp only [procCandidates, if_pos hcache, if_neg hdone]
        apply ih
        exact hI.2 (by simpa using hdone)
    · simp only [procCandidates, if_neg hcache]
      exact ih seen results hlt

/-- A concrete candidate note with one resolving item embedding the valid
token `QQ` (which decodes to `A`). -/
def demoNote : CandidateNote :=
  CandidateNote.mk 1 ['n'] true [LinkItem.mk true (some ("x#cfi64=QQ".toList)) (some ['d'])]

/-- C7 (amended: the bound holds for every limit of at least 1; at limit 0
the early-return check `results.length >= limit` fires only after a first
push, see the counterexample): `getHighlightsForBook` returns at most
`limit` descriptors, and every returned descriptor decodes from a token
appearing verbatim in a candidate note's link text. -/
theorem c7_resolver_bound_provenance (cands : List CandidateNote) (limit : Nat)
    (hlim : 1 ≤ limit) :
    (getHighlightsForBook cands limit).length ≤ limit ∧
    ∀ h ∈ getHighlightsForBook cands limit, descriptorFrom cands h := by
  constructor
  · exact procCandidates_bound limit cands [] [] (by simpa using hlim)
  · intro h hh
    obtain ⟨new, h1, h2⟩ := procCandidates_spec limit cands [] []
    apply h2
    rw [getHighlightsForBook, h1] at hh
    simpa using hh

/-- C7 counterexample: with `limit = 0` the resolver returns one
descriptor, violating the claimed bound for every limit `N`. -/
theorem c7_counterexample : ¬ ((getHighlightsForBook [demoNote] 0).length ≤ 0) := by decide

/-- Witness for C7 at a concrete candidate list and limit. -/
theorem c7_resolver_bound_provenance_witness :
    (getHighlightsForBook [demoNote] 200).length ≤ 200 ∧
    ∀ h ∈ getHighlightsForBook [demoNote] 200, descriptorFrom [demoNote] h :=
  c7_resolver_bound_provenance [demoNote] 200 (by decide)

theorem mem_extractAux_substring (pat : Str) :
    ∀ fuel s t, t ∈ extractTokensAfterAux pat fuel s → pat <:+: s := by
  intro fuel
  induction fuel with
  | zero =>
    intro s t ht
    cases s with
    | nil => simp [extractTokensAfterAux] at ht
    | cons c rest => simp [extractTokensAfterAux] at ht
  | succ k ih =>
    intro s t ht
    cases s with
    | nil => simp [extractTokensAfterAux] at ht
    | cons c rest =>
      by_cases hp : pat <+: (c :: rest)
      · exact hp.isInfix
      · simp only [extractTokensAfterAux, if_neg hp] at ht
        exact List.infix_cons (ih rest t ht)

theorem extract_ne_nil_contains (pat s : Str) (h : extractTokensAfter pat s ≠ []) :
    containsSeq pat s = true := by
  cases he : extractTokensAfter pat s with
  | nil => exact absurd he h
  | cons t ts =>
    have hm : t ∈ extractTokensAfterAux pat s.length s := by
      have : extractTokensAfter pat s = extractTokensAfterAux pat s.length s := rfl
      rw [← this, he]
      simp
    exact decide_eq_true (mem_extractAux_substring pat s.length s t hm)

/-- C6: resolver deduplication is global across candidate notes — two
distinct notes whose link texts embed the identical encoded token produce
exactly one descriptor, attributed to the first note; the later identical
occurrence from the other note is skipped. -/
theorem c6_resolver_dedup_global (id1 id2 : Nat) (b1 b2 d1 d2 o1 o2 t r : Str) (limit : Nat)
    (hne : id1 ≠ id2)
    (h1 : extractTokensAfter cfi64Pat o1 = [t])
    (h2 : extractTokensAfter cfi64Pat o2 = [t])
    (hdec : base64UrlDecode t = some r) (hlim : 2 ≤ limit) :
    getHighlightsForBook
      [CandidateNote.mk id1 b1 true [LinkItem.mk true (some o1) (some d1)],
       CandidateNote.mk id2 b2 true [LinkItem.mk true (some o2) (some d2)]] limit =
      [BacklinkHighlight.mk r id1 d1] := by
  have hc1 : containsSeq cfi64Pat o1 = true :=
    extract_ne_nil_contains _ _ (by rw [h1]; simp)
  have hc2 : containsSeq cfi64Pat o2 = true :=
    extract_ne_nil_contains _ _ (by rw [h2]; simp)
  have hgt : ¬ (limit ≤ 1) := by omega
  unfold getHighlightsForBook
  simp [procCandidates, procItems, procTokens, h1, h2, hc1, hc2, hdec, hgt]

/-- Witness for C6 at concrete notes and token. -/
theorem c6_resolver_dedup_global_witness :
    getHighlightsForBook
      [CandidateNote.mk 1 ['n'] true [LinkItem.mk true (some ("a#cfi64=QQ".toList)) (some ['d'])],
       CandidateNote.mk 2 ['m'] true [LinkItem.mk true (some ("b#cfi64=QQ".toList)) (some ['e'])]]
      200 = [BacklinkHighlight.mk ['A'] 1 ['d']] :=
  c6_resolver_dedup_global 1 2 ['n'] ['m'] ['d'] ['e'] ("a#cfi64=QQ".toList)
    ("b#cfi64=QQ".toList) ("QQ".toList) ['A'] 200 (by decide) (by decide) (by decide)
    (by decide) (by decide)

theorem tokenChar_remapDec_not_ws (c : Char) (h : tokenChar c = true) :
    isB64Ws (remapDec c) = false := by
  unfold remapDec
  by_cases hm : c = '-'
  · rw [if_pos hm]
    decide
  · rw [if_neg hm]
    by_cases hu : c = '_'
    · rw [if_pos hu]
      decide
    · rw [if_neg hu]
      by_contra hbw
      have hbw2 : isB64Ws c = true := by
        cases hb : isB64Ws c
        · exact absurd hb hbw
        · rfl
      simp only [isB64Ws, decide_eq_true_eq] at hbw2
      rcases hbw2 with hv | hv | hv | hv | hv <;>
        (first
          | (have hc : c = Char.ofNat 9 := char_eq_of_toNat_eq (by rw [hv]; rfl)
             rw [hc] at h; exact absurd h (by decide))
          | (have hc : c = Char.ofNat 10 := char_eq_of_toNat_eq (by rw [hv]; rfl)
             rw [hc] at h; exact absurd h (by decide))
          | (have hc : c = Char.ofNat 12 := char_eq_of_toNat_eq (by rw [hv]; rfl)
             rw [hc] at h; exact absurd h (by decide))
          | (have hc : c = Char.ofNat 13 := char_eq_of_toNat_eq (by rw [hv]; rfl)
             rw [hc] at h; exact absurd h (by decide))
          | (have hc : c = Char.ofNat 32 := char_eq_of_toNat_eq (by rw [hv]; rfl)
             rw [hc] at h; exact absurd h (by decide)))

/-- Tokens over the URL alphabet whose length is 1 mod 4 are invalid
base64: after padding, `atob` still sees a leftover `=` and throws. -/
theorem base64UrlDecode_len_mod4_one (t : Str) (htc : ∀ c ∈ t, tokenChar c = true)
    (hlen : t.length % 4 = 1) : base64UrlDecode t = none := by
  unfold base64UrlDecode
  have h3 : (4 - (t.map remapDec).length % 4) % 4 = 3 := by
    rw [List.length_map]
    omega
  rw [h3]
  have hfil : ((t.map remapDec) ++ List.replicate 3 '=').filter (fun c => !(isB64Ws c)) =
      (t.map remapDec) ++ List.replicate 3 '=' := by
    rw [List.filter_eq_self]
    intro a ha
    rw [List.mem_append] at ha
    rcases ha with ha | ha
    · rw [List.mem_map] at ha
      obtain ⟨c0, hc0, rfl⟩ := ha
      simp [tokenChar_remapDec_not_ws c0 (htc c0 hc0)]
    · rw [List.eq_of_mem_replicate ha]
      decide
  unfold atob
  rw [hfil]
  have hstrip : stripPad ((t.map remapDec) ++ List.replicate 3 '=') =
      (t.map remapDec) ++ ['='] := by
    unfold stripPad
    rw [if_pos (by simp [List.length_map]; omega)]
    have hrev : ((t.map remapDec) ++ List.replicate 3 '=').reverse =
        '=' :: '=' :: '=' :: (t.map remapDec).reverse := by
      simp [List.replicate]
    rw [hrev]
    simp only []
    rw [if_pos trivial, if_pos trivial]
    rw [List.reverse_cons']
    simp
  rw [hstrip]
  rw [if_neg (by simp [List.length_map]; omega)]
  rw [if_neg ?hnall]
  case hnall =>
    intro hall
    rw [List.all_eq_true] at hall
    have := hall '=' (by simp)
    simp [b64Val] at this
  rfl

/-- C9 (amended): `base64UrlDecode` fails on invalid base64 — e.g. every
URL-alphabet token of length 1 mod 4 — and `getHighlightsForBook` catches
the failure, drops that occurrence and continues with later tokens of the
same item (never propagating). Decoded byte sequences that are invalid
UTF-8 do NOT make decoding fail: the non-fatal `TextDecoder` substitutes
U+FFFD (see the counterexample). -/
theorem c9_decode_failure_semantics :
    (∀ t : Str, (∀ c ∈ t, tokenChar c = true) → t.length % 4 = 1 →
      base64UrlDecode t = none) ∧
    (∀ (id : Nat) (b d o tbad tgood r : Str) (limit : Nat),
      extractTokensAfter cfi64Pat o = [tbad, tgood] →
      base64UrlDecode tbad = none → base64UrlDecode tgood = some r → 2 ≤ limit →
      getHighlightsForBook [CandidateNote.mk id b true [LinkItem.mk true (some o) (some d)]]
        limit = [BacklinkHighlight.mk r id d]) := by
  refine ⟨base64UrlDecode_len_mod4_one, ?_⟩
  intro id b d o tbad tgood r limit hex hbad hgood hlim
  have hc : containsSeq cfi64Pat o = true :=
    extract_ne_nil_contains _ _ (by rw [hex]; simp)
  have hne : tbad ≠ tgood := by
    intro he
    rw [he, hgood] at hbad
    cases hbad
  have hgt : ¬ (limit ≤ 1) := by omega
  unfold getHighlightsForBook
  simp [procCandidates, procItems, procTokens, hex, hc, hbad, hgood, hgt,
    Ne.symm hne, hne]

/-- C9 counterexample: the token `gA` decodes to the single byte 0x80,
which is invalid UTF-8, yet `base64UrlDecode` succeeds, returning U+FFFD
instead of failing. -/
theorem c9_counterexample : base64UrlDecode ['g', 'A'] = some [Char.ofNat 0xFFFD] := by decide

/-- Witness for C9: the token `z` (length 1 mod 4) fails to decode, and a
note whose link text carries `z` followed by the valid token `QQ` still
yields the descriptor for `QQ`. -/
theorem c9_decode_failure_semantics_witness :
    base64UrlDecode ['z'] = none ∧
    getHighlightsForBook
      [CandidateNote.mk 7 ['n'] true
        [LinkItem.mk true (some ("a#cfi64=z! b#cfi64=QQ".toList)) (some ['d'])]] 200 =
      [BacklinkHighlight.mk ['A'] 7 ['d']] :=
  ⟨c9_decode_failure_semantics.1 ['z'] (by decide) (by decide),
   c9_decode_failure_semantics.2 7 ['n'] ['d'] ("a#cfi64=z! b#cfi64=QQ".toList) ['z']
     ("QQ".toList) ['A'] 200 (by decide) (by decide) (by decide) (by decide)⟩

/-! ## EpubReader jump controller (src/unnamed/part_000) -/

/-- Is `c` a JavaScript regex line terminator (not matched by `.`)? -/
def isLineTerm (c : Char) : Bool :=
  c == Char.ofNat 10 || c == Char.ofNat 13 || c == Char.ofNat 0x2028 || c == Char.ofNat 0x2029

/-- The lazy group scan of `/^epubcfi\((.+?),/`: find the least comma
index at least 1 such that no line terminator precedes it; the group is
everything before that comma. `acc` holds the (reversed) group so far. -/
def scanCfiGroup (acc : Str) : Str → Option Str
  | [] => none
  | c :: rest =>
    if c = ',' ∧ acc ≠ [] then some acc.reverse
    else if isLineTerm c then none
    else scanCfiGroup (c :: acc) rest

/-- `getRangeStartCfi` (src/unnamed/part_000 lines 88-91): match
`/^epubcfi\((.+?),/` and rebuild `epubcfi(<group>)`, else null. -/
def getRangeStartCfi (cfi : Str) : Option Str :=
  if "epubcfi(".toList <+: cfi then
    match scanCfiGroup [] (cfi.drop 8) with
    | some g => some ("epubcfi(".toList ++ g ++ [')'])
    | none => none
  else none

/-- The jump-related reader state: the attached rendition — abstracted per
the renderer contract to its display-acceptance predicate — and
`pendingJumpRef` (src/unnamed/part_000 lines 132-133). -/
structure ReaderJumpState where
  rendition : Option (Str → Bool)
  pendingJump : Option Str

/-- `tryDisplayCfi` (lines 258-274): awaiting `book.ready` is tolerated;
the attempt reports the renderer's accept/reject outcome. -/
def tryDisplayCfi (accepts : Str → Bool) (cfi : Str) : Bool := accepts cfi

/-- `displayJumpCfi` against an attached rendition (lines 276-291):
attempt the cfi; on rejection derive the start anchor and attempt it once
unless it is null or equal to the original. Also returns the list of
display calls made, in order. -/
def displayJumpCfiR (accepts : Str → Bool) (cfi : Str) : Bool × List Str :=
  if tryDisplayCfi accepts cfi then (true, [cfi])
  else
    match getRangeStartCfi cfi with
    | some fb => if fb ≠ cfi then (tryDisplayCfi accepts fb, [cfi, fb]) else (false, [cfi])
    | none => (false, [cfi])

/-- `displayJumpCfi` including the `renditionRef.current` null check
(line 279): with no rendition it reports failure without any display
call. -/
def displayJumpCfi (st : ReaderJumpState) (cfi : Str) : Bool × List Str :=
  match st.rendition with
  | none => (false, [])
  | some accepts => displayJumpCfiR accepts cfi

/-- The jump-request effect (src/unnamed/part_000 lines 294-300): on a
truthy request (`!jumpCfiRange` treats null and the empty string alike),
store it in `pendingJumpRef`, attempt it, and clear the ref only when the
attempt reports success. -/
def jumpEffect (st : ReaderJumpState) (jumpCfiRange : Option Str) :
    ReaderJumpState × List Str :=
  match jumpCfiRange with
  | none => (st, [])
  | some cfi =>
    if cfi = [] then (st, [])
    else
      let st1 : ReaderJumpState := { st with pendingJump := some cfi }
      let r := displayJumpCfi st1 cfi
      (if r.1 then { st1 with pendingJump := none } else st1, r.2)

/-- The jump-related part of the `getRendition` callback (src/unnamed/
part_000 lines 644-658): attach the rendition, and if a pending jump is
held, attempt it, clearing the ref only on success. -/
def getRendition (st : ReaderJumpState) (accepts : Str → Bool) :
    ReaderJumpState × List Str :=
  let st1 : ReaderJumpState := { st with rendition := some accepts }
  match st1.pendingJump with
  | none => (st1, [])
  | some cfi =>
    if cfi = [] then (st1, [])
    else
      let r := displayJumpCfi st1 cfi
      (if r.1 then { st1 with pendingJump := none } else st1, r.2)

/-- A concrete compound range identifier and its start anchor. -/
def demoCfi3 : Str := "epubcfi(/6/2!/4/2,/1:0,/1:9)".toList

/-- C3 counterexample: with a rendition that rejects every display call,
the jump attempt completes with exhausted fallback (both display calls
made), yet `pendingJumpRef` is NOT cleared, and the next `getRendition`
automatically retries the same request (two further display calls). -/
theorem c3_counterexample :
    (jumpEffect ⟨some (fun _ => false), none⟩ (some demoCfi3)).2 =
      [demoCfi3, "epubcfi(/6/2!/4/2)".toList] ∧
    (jumpEffect ⟨some (fun _ => false), none⟩ (some demoCfi3)).1.pendingJump =
      some demoCfi3 ∧
    (getRendition (jumpEffect ⟨some (fun _ => false), none⟩ (some demoCfi3)).1
      (fun _ => false)).2 = [demoCfi3, "epubcfi(/6/2!/4/2)".toList] := by
  refine ⟨by decide, by decide, by decide⟩

/-- C3 (amended): the pending jump is consumed exactly when an attempt
succeeds — `pendingJumpRef` is cleared iff the display attempt (direct or
fallback) succeeds, and once cleared a later rendition attach makes no
further display call; after a failed attempt the request is retained (and
is retried on the next rendition attach, see the counterexample). -/
theorem c3_jump_consumed_on_success (accepts : Str → Bool) (p : Option Str) (cfi : Str)
    (hcfi : cfi ≠ []) :
    ((jumpEffect ⟨some accepts, p⟩ (some cfi)).1.pendingJump = none ↔
      (displayJumpCfiR accepts cfi).1 = true) ∧
    ((jumpEffect ⟨some accepts, p⟩ (some cfi)).1.pendingJump = none →
      ∀ acc2 : Str → Bool,
        getRendition (jumpEffect ⟨some accepts, p⟩ (some cfi)).1 acc2 =
          (ReaderJumpState.mk (some acc2) none, [])) := by
  unfold jumpEffect displayJumpCfi
  simp only [if_neg hcfi]
  by_cases hok : (displayJumpCfiR accepts cfi).1
  · constructor
    · simp [hok]
    · intro _ acc2
      simp [hok, getRendition]
  · constructor
    · simp [hok]
    · intro hnone
      simp [hok] at hnone

/-- Witness for C3 at an accepting rendition: the request is consumed and
a later rendition attach does not retry it. -/
theorem c3_jump_consumed_on_success_witness :
    (jumpEffect ⟨some (fun _ => true), none⟩ (some demoCfi3)).1.pendingJump = none ∧
    getRendition (jumpEffect ⟨some (fun _ => true), none⟩ (some demoCfi3)).1
      (fun _ => false) = (ReaderJumpState.mk (some (fun _ => false)) none, []) :=
  ⟨(c3_jump_consumed_on_success (fun _ => true) none demoCfi3 (by decide)).1.mpr (by decide),
   (c3_jump_consumed_on_success (fun _ => true) none demoCfi3 (by decide)).2
     ((c3_jump_consumed_on_success (fun _ => true) none demoCfi3 (by decide)).1.mpr
       (by decide))
     (fun _ => false)⟩

/-- A concrete compound range identifier used for C4. -/
def demoCfi4 : Str := "epubcfi(/4/2,/1:1,/1:3)".toList

/-- C4 counterexample: when both display attempts are rejected, the
controller does NOT reach the idle state — the pending jump is retained
(the claim asserts it still reaches idle). -/
theorem c4_counterexample :
    (displayJumpCfiR (fun _ => false) demoCfi4).1 = false ∧
    (jumpEffect ⟨some (fun _ => false), none⟩ (some demoCfi4)).1.pendingJump ≠ none := by
  refine ⟨by decide, by decide⟩

/-- C4 (amended): (a) a target rejected directly but whose start anchor is
accepted leads to the surface displaying the start anchor and the request
being consumed (idle); (b) when the start anchor is not decomposable (or
equals the original) the fallback attempt is skipped — only one display
call is made; (c) amended: when both attempts are rejected,
`displayJumpCfi` reports failure after exactly the two display calls and
the pending-jump state is retained, not cleared. -/
theorem c4_jump_fallback (accepts : Str → Bool) (p : Option Str) (cfi fb : Str) :
    (accepts cfi = false → getRangeStartCfi cfi = some fb → fb ≠ cfi →
      accepts fb = true →
      displayJumpCfiR accepts cfi = (true, [cfi, fb]) ∧
      (jumpEffect ⟨some accepts, p⟩ (some cfi)).1.pendingJump = none) ∧
    (getRangeStartCfi cfi = none ∨ getRangeStartCfi cfi = some cfi →
      displayJumpCfiR accepts cfi = (accepts cfi, [cfi])) ∧
    (accepts cfi = false → getRangeStartCfi cfi = some fb → fb ≠ cfi →
      accepts fb = false →
      displayJumpCfiR accepts cfi = (false, [cfi, fb]) ∧
      (jumpEffect ⟨some accepts, p⟩ (some cfi)).1.pendingJump = some cfi) := by
  refine ⟨?_, ?_, ?_⟩
  · intro hrej hfb hne hacc
    have hcfi : cfi ≠ [] := by
      intro he
      rw [he] at hfb
      have hnone : getRangeStartCfi [] = none := by decide
      rw [hnone] at hfb
      cases hfb
    have hd : displayJumpCfiR accepts cfi = (true, [cfi, fb]) := by
      unfold displayJumpCfiR tryDisplayCfi
      rw [if_neg (by simp [hrej]), hfb]
      simp only []
      rw [if_pos hne, hacc]
    refine ⟨hd, ?_⟩
    unfold jumpEffect displayJumpCfi
    simp [hd, hcfi]
  · intro hcase
    unfold displayJumpCfiR tryDisplayCfi
    cases hacc : accepts cfi
    · rw [if_neg (by simp)]
      rcases hcase with hcase | hcase
      · rw [hcase]
      · rw [hcase]
        simp only []
        rw [if_neg (by simp)]
    · rw [if_pos rfl]
  · intro hrej hfb hne hacc
    have hcfi : cfi ≠ [] := by
      intro he
      rw [he] at hfb
      have hnone : getRangeStartCfi [] = none := by decide
      rw [hnone] at hfb
      cases hfb
    have hd : displayJumpCfiR accepts cfi = (false, [cfi, fb]) := by
      unfold displayJumpCfiR tryDisplayCfi
      rw [if_neg (by simp [hrej]), hfb]
      simp only []
      rw [if_pos hne, hacc]
    refine ⟨hd, ?_⟩
    unfold jumpEffect displayJumpCfi
    simp [hd, hcfi]

/-- Witness for C4: a rendition accepting only the start anchor displays
the anchor and consumes the request; a point cfi with no decomposable
start skips the fallback. -/
theorem c4_jump_fallback_witness :
    (displayJumpCfiR (fun s => s == "epubcfi(/4/2)".toList) demoCfi4 =
      (true, [demoCfi4, "epubcfi(/4/2)".toList]) ∧
      (jumpEffect ⟨some (fun s => s == "epubcfi(/4/2)".toList), none⟩
        (some demoCfi4)).1.pendingJump = none) ∧
    displayJumpCfiR (fun _ => false) ("epubcfi(/2)".toList) =
      (false, ["epubcfi(/2)".toList]) :=
  ⟨(c4_jump_fallback (fun s => s == "epubcfi(/4/2)".toList) none demoCfi4
      ("epubcfi(/4/2)".toList)).1 (by decide) (by decide) (by decide) (by decide),
   (c4_jump_fallback (fun _ => false) none ("epubcfi(/2)".toList)
      ("epubcfi(/2)".toList)).2.1 (Or.inl (by decide))⟩

/-! ## Highlight reconciliation (applyBacklinkHighlights, src/unnamed/part_000) -/

/-- Insertion into the renderer's keyed annotation store: epubjs keys
annotations by their cfi, so re-adding an existing key leaves one entry. -/
def insertSet (l : List Str) (x : Str) : List Str := if x ∈ l then l else l ++ [x]

/-- The annotation surface: the reconciler-owned active annotation set of
the rendition (a keyed store, spec section 6 renderer contract) and
`addedBacklinkCfisRef` (src/unnamed/part_000 line 147). -/
structure AnnSurface where
  active : List Str
  added : List Str

/-- The removal loop (lines 306-313): `annotations.remove` every
previously added cfi, tolerating per-item failure (removing an absent key
is a no-op). -/
def removeAnnotations (active added : List Str) : List Str :=
  added.foldl (fun acc cfi => acc.erase cfi) active

/-- The addition loop (lines 316-333): `annotations.add` each capped
descriptor; `valid` is the renderer's acceptance of the range (an invalid
range throws and is caught, skipping only that item); a successful add
materializes the cfi and records it in the ref. -/
def addAnnotations (valid : Str → Bool) (s : AnnSurface)
    (capped : List BacklinkHighlight) : AnnSurface :=
  capped.foldl
    (fun st hl =>
      if valid hl.cfiRange then
        AnnSurface.mk (insertSet st.active hl.cfiRange) (st.added ++ [hl.cfiRange])
      else st) s

/-- `applyBacklinkHighlights` (src/unnamed/part_000 lines 303-336):
cleanup-first — remove everything previously added, reset the ref to `[]`,
then add the first `min(80, len)` incoming descriptors. -/
def applyBacklinkHighlights (valid : Str → Bool) (s : AnnSurface)
    (next : List BacklinkHighlight) : AnnSurface :=
  addAnnotations valid (AnnSurface.mk (removeAnnotations s.active s.added) []) (next.take 80)

/-- The ranges of the descriptors the renderer accepts. -/
def validRanges (valid : Str → Bool) (l : List BacklinkHighlight) : List Str :=
  (l.filter (fun h => valid h.cfiRange)).map (fun h => h.cfiRange)

theorem mem_insertSet (l : List Str) (x y : Str) :
    y ∈ insertSet l x ↔ y ∈ l ∨ y = x := by
  unfold insertSet
  split_ifs with hx
  · constructor
    · exact Or.inl
    · rintro (hy | rfl)
      · exact hy
      · exact hx
  · simp

theorem nodup_insertSet (l : List Str) (x : Str) (h : l.Nodup) : (insertSet l x).Nodup := by
  unfold insertSet
  split_ifs with hx
  · exact h
  · simp [List.nodup_append, h, hx]

theorem validRanges_cons (valid : Str → Bool) (h : BacklinkHighlight)
    (l : List BacklinkHighlight) :
    validRanges valid (h :: l) =
      if valid h.cfiRange then h.cfiRange :: validRanges valid l else validRanges valid l := by
  simp only [validRanges, List.filter_cons]
  split_ifs with hv
  · simp
  · rfl

theorem addAnnotations_added (valid : Str → Bool) (capped : List BacklinkHighlight) :
    ∀ s : AnnSurface, (addAnnotations valid s capped).added = s.added ++ validRanges valid capped := by
  induction capped with
  | nil => intro s; simp [addAnnotations, validRanges]
  | cons h t ih =>
    intro s
    by_cases hv : valid h.cfiRange
    · rw [validRanges_cons, if_pos hv]
      simp only [addAnnotations, List.foldl_cons, if_pos hv]
      rw [show (List.foldl _ _ t : AnnSurface) = addAnnotations valid
        (AnnSurface.mk (insertSet s.active h.cfiRange) (s.added ++ [h.cfiRange])) t from rfl]
      rw [ih]
      simp
    · rw [validRanges_cons, if_neg hv]
      simp only [addAnnotations, List.foldl_cons, if_neg hv]
      rw [show (List.foldl _ _ t : AnnSurface) = addAnnotations valid s t from rfl]
      rw [ih]

theorem addAnnotations_mem_active (valid : Str → Bool) (capped : List BacklinkHighlight) :
    ∀ (s : AnnSurface) (y : Str), y ∈ (addAnnotations valid s capped).active ↔
      y ∈ s.active ∨ y ∈ validRanges valid capped := by
  induction capped with
  | nil => intro s y; simp [addAnnotations, validRanges]
  | cons h t ih =>
    intro s y
    by_cases hv : valid h.cfiRange
    · rw [validRanges_cons, if_pos hv]
      simp only [addAnnotations, List.foldl_cons, if_pos hv]
      rw [show (List.foldl _ _ t : AnnSurface) = addAnnotations valid
        (AnnSurface.mk (insertSet s.active h.cfiRange) (s.added ++ [h.cfiRange])) t from rfl]
      rw [ih]
      simp only [mem_insertSet, List.mem_cons]
      tauto
    · rw [validRanges_cons, if_neg hv]
      simp only [addAnnotations, List.foldl_cons, if_neg hv]
      rw [show (List.foldl _ _ t : AnnSurface) = addAnnotations valid s t from rfl]
      rw [ih]

theorem addAnnotations_nodup_active (valid : Str → Bool) (capped : List BacklinkHighlight) :
    ∀ s : AnnSurface, s.active.Nodup → (addAnnotations valid s capped).active.Nodup := by
  induction capped with
  | nil => intro s hs; simpa [addAnnotations] using hs
  | cons h t ih =>
    intro s hs
    by_cases hv : valid h.cfiRange
    · simp only [addAnnotations, List.foldl_cons, if_pos hv]
      rw [show (List.foldl _ _ t : AnnSurface) = addAnnotations valid
        (AnnSurface.mk (insertSet s.active h.cfiRange) (s.added ++ [h.cfiRange])) t from rfl]
      exact ih _ (nodup_insertSet _ _ hs)
    · simp only [addAnnotations, List.foldl_cons, if_neg hv]
      rw [show (List.foldl _ _ t : AnnSurface) = addAnnotations valid s t from rfl]
      exact ih s hs

theorem removeAnnotations_eq_filter (added : List Str) :
    ∀ active : List Str, active.Nodup →
      removeAnnotations active added = active.filter (fun x => !(decide (x ∈ added))) := by
  induction added with
  | nil =>
    intro active hnd
    simp [removeAnnotations]
  | cons a rest ih =>
    intro active hnd
    have hstep : removeAnnotations active (a :: rest) = removeAnnotations (active.erase a) rest :=
      rfl
    rw [hstep, ih (active.erase a) (hnd.erase a)]
    rw [List.Nodup.erase_eq_filter hnd a, List.filter_filter]
    apply List.filter_congr
    intro x _
    simp only [List.mem_cons, Bool.not_eq_true']
    cases hxa : (x == a) <;> cases hxr : decide (x ∈ rest) <;>
      simp_all [bne]

theorem removeAnnotations_nil_of_subset (active added : List Str) (hnd : active.Nodup)
    (hsub : ∀ x ∈ active, x ∈ added) : removeAnnotations active added = [] := by
  rw [removeAnnotations_eq_filter added active hnd]
  rw [List.filter_eq_nil_iff]
  intro x hx
  simp [hsub x hx]

theorem validRanges_all_valid (valid : Str → Bool) (l : List BacklinkHighlight)
    (h : ∀ x ∈ l, valid x.cfiRange = true) :
    validRanges valid l = l.map (fun x => x.cfiRange) := by
  unfold validRanges
  rw [List.filter_eq_self.mpr h]

theorem applyBacklinkHighlights_from_inv (valid : Str → Bool) (s : AnnSurface)
    (D : List BacklinkHighlight) (hinv : ∀ x, x ∈ s.active ↔ x ∈ s.added)
    (hnd : s.active.Nodup) :
    applyBacklinkHighlights valid s D =
      addAnnotations valid (AnnSurface.mk [] []) (D.take 80) := by
  unfold applyBacklinkHighlights
  rw [removeAnnotations_nil_of_subset s.active s.added hnd (fun x hx => (hinv x).mp hx)]

/-- C2: highlight reconciliation is idempotent and capped — starting from
any surface state consistent with the reconciler's ref (`active` and
`added` hold the same cfis, as at rendition attach where both are empty),
running `applyBacklinkHighlights` twice with the same descriptor list `D`
leaves the active annotation set equal (as a set, with no duplicates) to
the valid subset of the first `min(80, len D)` descriptors — indeed equal
to the active set after the first run; and with 100 valid descriptors with
distinct ranges, exactly 80 annotations are materialized. -/
theorem c2_reconciliation_idempotent_capped (valid : Str → Bool) (s : AnnSurface)
    (D : List BacklinkHighlight) (hinv : ∀ x, x ∈ s.active ↔ x ∈ s.added)
    (hnd : s.active.Nodup) :
    (∀ x, x ∈ (applyBacklinkHighlights valid (applyBacklinkHighlights valid s D) D).active ↔
      x ∈ validRanges valid (D.take 80)) ∧
    (applyBacklinkHighlights valid (applyBacklinkHighlights valid s D) D).active.Nodup ∧
    (applyBacklinkHighlights valid (applyBacklinkHighlights valid s D) D).active =
      (applyBacklinkHighlights valid s D).active ∧
    (D.length = 100 → (∀ h ∈ D, valid h.cfiRange = true) →
      (D.map (fun h => h.cfiRange)).Nodup →
      (applyBacklinkHighlights valid (applyBacklinkHighlights valid s D) D).active.length =
        80) := by
  have h1 : applyBacklinkHighlights valid s D =
      addAnnotations valid (AnnSurface.mk [] []) (D.take 80) :=
    applyBacklinkHighlights_from_inv valid s D hinv hnd
  have hmem1 : ∀ x, x ∈ (applyBacklinkHighlights valid s D).active ↔
      x ∈ validRanges valid (D.take 80) := by
    intro x
    rw [h1, addAnnotations_mem_active]
    simp
  have hnd1 : (applyBacklinkHighlights valid s D).active.Nodup := by
    rw [h1]
    exact addAnnotations_nodup_active valid (D.take 80) _ (by simp)
  have hinv1 : ∀ x, x ∈ (applyBacklinkHighlights valid s D).active ↔
      x ∈ (applyBacklinkHighlights valid s D).added := by
    intro x
    rw [hmem1 x, h1, addAnnotations_added]
    simp
  have h2 : applyBacklinkHighlights valid (applyBacklinkHighlights valid s D) D =
      addAnnotations valid (AnnSurface.mk [] []) (D.take 80) :=
    applyBacklinkHighlights_from_inv valid _ D hinv1 hnd1
  have hmem2 : ∀ x,
      x ∈ (applyBacklinkHighlights valid (applyBacklinkHighlights valid s D) D).active ↔
      x ∈ validRanges valid (D.take 80) := by
    intro x
    rw [h2, addAnnotations_mem_active]
    simp
  have hnd2 : (applyBacklinkHighlights valid (applyBacklinkHighlights valid s D) D).active.Nodup := by
    rw [h2]
    exact addAnnotations_nodup_active valid (D.take 80) _ (by simp)
  refine ⟨hmem2, hnd2, by rw [h2, h1], ?_⟩
  intro hlen hval hndr
  have hvr : validRanges valid (D.take 80) = (D.map (fun h => h.cfiRange)).take 80 := by
    rw [validRanges_all_valid valid (D.take 80)
      (fun x hx => hval x (List.mem_of_mem_take hx))]
    rw [List.map_take]
  have hndt : ((D.map (fun h => h.cfiRange)).take 80).Nodup :=
    (List.take_sublist 80 _).nodup hndr
  have hperm : (applyBacklinkHighlights valid (applyBacklinkHighlights valid s D) D).active.Perm
      ((D.map (fun h => h.cfiRange)).take 80) := by
    rw [List.perm_ext_iff_of_nodup hnd2 hndt]
    intro a
    rw [hmem2 a, hvr]
  rw [hperm.length_eq, List.length_take, List.length_map, hlen]
  simp

/-- 100 descriptors with pairwise distinct ranges, all renderer-valid. -/
def demoD : List BacklinkHighlight :=
  (List.range 100).map (fun i => BacklinkHighlight.mk [Char.ofNat (33 + i)] 0 [])

theorem demoD_ranges_nodup : (demoD.map (fun h => h.cfiRange)).Nodup := by
  simp only [demoD, List.map_map]
  refine List.Nodup.map_on ?_ (List.nodup_range 100)
  intro i hi j hj hij
  simp only [List.mem_range] at hi hj
  simp only [Function.comp] at hij
  have h1 : (Char.ofNat (33 + i)) = (Char.ofNat (33 + j)) := by
    have := List.head_eq_of_cons_eq hij
    exact this
  have h2 : (33 + i : Nat) = 33 + j := by
    have hv1 : ((Char.ofNat (33 + i)).toNat) = 33 + i := char_toNat_ofNat (Or.inl (by omega))
    have hv2 : ((Char.ofNat (33 + j)).toNat) = 33 + j := char_toNat_ofNat (Or.inl (by omega))
    rw [← hv1, ← hv2, h1]
  omega

/-- Witness for C2: from the empty surface, reconciling 100 valid distinct
descriptors twice materializes exactly 80 annotations. -/
theorem c2_reconciliation_idempotent_capped_witness :
    (applyBacklinkHighlights (fun _ => true)
      (applyBacklinkHighlights (fun _ => true) (AnnSurface.mk [] []) demoD)
      demoD).active.length = 80 :=
  (c2_reconciliation_idempotent_capped (fun _ => true) (AnnSurface.mk [] []) demoD
    (by simp) (by simp)).2.2.2 (by simp [demoD]) (fun _ _ => rfl) demoD_ranges_nodup

/-! ## ProgressStore (src/unnamed/part_005) -/

/-- Collapse every run of slashes to a single slash (each step consumes at
least one character, so a fuel of the length suffices). -/
def collapseSlashesAux : Nat → Str → Str
  | _, [] => []
  | 0, l => l
  | fuel + 1, '/' :: rest => '/' :: collapseSlashesAux fuel (rest.dropWhile (fun c => c == '/'))
  | fuel + 1, c :: rest => c :: collapseSlashesAux fuel rest

/-- Collapse every run of slashes to a single slash. -/
def collapseSlashes (s : Str) : Str := collapseSlashesAux s.length s

/-- Modelled from the spec: the Obsidian `normalizePath` collaborator (an
external API, not part of this repository) — per spec section 3 the
normalization is stable under path-separator and trailing-slash variation:
backslashes become slashes, slash runs collapse, and leading and trailing
slashes are dropped. -/
def normalizePathM (p : Str) : Str :=
  ((((collapseSlashes (p.map (fun c => if c = '\\' then '/' else c))).dropWhile
    (fun c => c == '/')).reverse.dropWhile (fun c => c == '/')).reverse)

/-- `normalizeProgressKey` (src/unnamed/part_004 lines 69-71). -/
def normalizeProgressKey (bookPath : Str) : Str := normalizePathM bookPath

/-- A viewer location: a cfi string or a numeric position. -/
def Loc : Type := Str ⊕ Int
deriving instance DecidableEq for Loc

/-- `BookProgress` (src/unnamed/part_005 lines 6-9). -/
structure BookProgress where
  location : Loc
  updatedAt : Nat
deriving DecidableEq

/-- The `progress` record of the persisted plugin data, as a keyed map. -/
def ProgressMap : Type := Str → Option BookProgress

/-- Point update of the progress map (property assignment / `delete`). -/
def updateKey (m : ProgressMap) (k : Str) (v : Option BookProgress) : ProgressMap :=
  fun x => if x = k then v else m x

/-- The single-file branch of the `vault.on("rename")` handler
(src/unnamed/part_005 lines 156-165): copy the record to the new key only
when the old key holds one and the new key holds none; then delete the old
key whenever it held a record. -/
def renameFileProgress (m : ProgressMap) (oldPath newPath : Str) : ProgressMap :=
  let oldKey := normalizeProgressKey oldPath
  let newKey := normalizeProgressKey newPath
  let m1 := if (m oldKey).isSome && (m newKey).isNone then updateKey m newKey (m oldKey) else m
  if (m1 oldKey).isSome then updateKey m1 oldKey none else m1

/-- `getProgress` (src/unnamed/part_005 lines 173-176). -/
def getProgress (m : ProgressMap) (bookPath : Str) : Option Loc :=
  (m (normalizeProgressKey bookPath)).map (fun r => r.location)

/-- `setProgress` (src/unnamed/part_005 lines 178-182); `now` models
`Date.now()`. The debounced save keeps the in-memory map authoritative. -/
def setProgress (m : ProgressMap) (bookPath : Str) (location : Loc) (now : Nat) : ProgressMap :=
  updateKey m (normalizeProgressKey bookPath) (some (BookProgress.mk location now))

/-- C5: single-file rename migration — if a record exists at the old
normalized key and none at the new one, it is copied to the new key; the
old key is deleted in every case where it held a record (including the
collision case, where the old record is lost in favor of the existing
destination record); all other keys are untouched. -/
theorem c5_single_rename_migration (m : ProgressMap) (oldPath newPath : Str) :
    ((m (normalizeProgressKey oldPath)).isSome →
      m (normalizeProgressKey newPath) = none →
      renameFileProgress m oldPath newPath (normalizeProgressKey newPath) =
        m (normalizeProgressKey oldPath)) ∧
    ((m (normalizeProgressKey oldPath)).isSome →
      renameFileProgress m oldPath newPath (normalizeProgressKey oldPath) = none) ∧
    (∀ k, k ≠ normalizeProgressKey oldPath → k ≠ normalizeProgressKey newPath →
      renameFileProgress m oldPath newPath k = m k) ∧
    (∀ rec2, m (normalizeProgressKey newPath) = some rec2 →
      normalizeProgressKey oldPath ≠ normalizeProgressKey newPath →
      renameFileProgress m oldPath newPath (normalizeProgressKey newPath) = some rec2) := by
  refine ⟨?_, ?_, ?_, ?_⟩
  · intro hold hnew
    have hne : normalizeProgressKey oldPath ≠ normalizeProgressKey newPath := by
      intro he
      rw [he, hnew] at hold
      cases hold
    simp [renameFileProgress, updateKey, ite_apply, hold, hnew, hne, Ne.symm hne]
  · intro hold
    by_cases hnew : m (normalizeProgressKey newPath) = none
    · have hne : normalizeProgressKey oldPath ≠ normalizeProgressKey newPath := by
        intro he
        rw [he, hnew] at hold
        cases hold
      simp [renameFileProgress, updateKey, ite_apply, hold, hnew, hne, Ne.symm hne]
    · simp [renameFileProgress, updateKey, ite_apply, hold,
        Option.isNone_iff_eq_none, hnew]
  · intro k hko hkn
    simp only [renameFileProgress, updateKey]
    split_ifs <;> simp [updateKey, hko, hkn]
  · intro rec2 hnew hne
    simp only [renameFileProgress, updateKey]
    split_ifs with h1 h2 <;>
      simp_all [updateKey, Ne.symm hne, Option.isNone_iff_eq_none]

/-- A concrete one-record progress map keyed at `A/Book.epub`. -/
def demoProgress : ProgressMap :=
  fun k => if k = "A/Book.epub".toList then some (BookProgress.mk (Sum.inr 42) 0) else none

/-- Witness for C5: renaming `A/Book.epub` to `B/Book.epub` moves the
record and clears the old key. -/
theorem c5_single_rename_migration_witness :
    renameFileProgress demoProgress ("A/Book.epub".toList) ("B/Book.epub".toList)
      (normalizeProgressKey ("B/Book.epub".toList)) =
      demoProgress (normalizeProgressKey ("A/Book.epub".toList)) ∧
    renameFileProgress demoProgress ("A/Book.epub".toList) ("B/Book.epub".toList)
      (normalizeProgressKey ("A/Book.epub".toList)) = none :=
  ⟨(c5_single_rename_migration demoProgress ("A/Book.epub".toList) ("B/Book.epub".toList)).1
      (by decide) (by decide),
   (c5_single_rename_migration demoProgress ("A/Book.epub".toList)
      ("B/Book.epub".toList)).2.1 (by decide)⟩

/-- C10 (implicit): progress set/get round-trip under path normalization —
after `setProgress p loc`, `getProgress q` returns `loc` for every path
`q` normalizing to the same key as `p`, and the records under every other
normalized key are unchanged. -/
theorem c10_progress_roundtrip (m : ProgressMap) (p q : Str) (loc : Loc) (now : Nat) :
    (normalizeProgressKey q = normalizeProgressKey p →
      getProgress (setProgress m p loc now) q = some loc) ∧
    (∀ k, k ≠ normalizeProgressKey p → setProgress m p loc now k = m k) := by
  constructor
  · intro hq
    unfold getProgress setProgress updateKey
    rw [hq, if_pos rfl]
    rfl
  · intro k hk
    unfold setProgress updateKey
    rw [if_neg hk]

/-- Witness for C10: `A//Book.epub` and `A/Book.epub` normalize to the
same key, so the location written under one is read back under the
other; an unrelated key is untouched. -/
theorem c10_progress_roundtrip_witness :
    getProgress (setProgress demoProgress ("A/Book.epub".toList) (Sum.inr 7) 5)
      ("A//Book.epub".toList) = some (Sum.inr 7) ∧
    setProgress demoProgress ("A/Book.epub".toList) (Sum.inr 7) 5 ("C/x.epub".toList) =
      demoProgress ("C/x.epub".toList) :=
  ⟨(c10_progress_roundtrip demoProgress ("A/Book.epub".toList) ("A//Book.epub".toList)
      (Sum.inr 7) 5).1 (by decide),
   (c10_progress_roundtrip demoProgress ("A/Book.epub".toList) ("A//Book.epub".toList)
      (Sum.inr 7) 5).2 ("C/x.epub".toList) (by decide)⟩

/-! ## LinkParser (parseEpubCfi64Link, src/unnamed/part_004 lines 42-67) -/

/-- Is `c` an ASCII hex digit? -/
def isHexDigit (c : Char) : Bool :=
  c.isDigit || decide ('a' ≤ c ∧ c ≤ 'f') || decide ('A' ≤ c ∧ c ≤ 'F')

/-- Value of an ASCII hex digit. -/
def hexVal (c : Char) : Nat :=
  if c.isDigit then c.toNat - 48 else if decide ('a' ≤ c) then c.toNat - 87 else c.toNat - 55

/-- Strict UTF-8 decode of a byte list (the ECMAScript `Decode` abstract
operation validates escaped byte sequences as UTF-8 and throws
`URIError` on malformed input). -/
def utf8DecodeStrict : List Nat → Option (List Char)
  | [] => some []
  | b :: rest =>
    if b < 0x80 then (utf8DecodeStrict rest).map (Char.ofNat b :: ·)
    else if 0xC2 ≤ b ∧ b ≤ 0xDF then
      match rest with
      | [] => none
      | c1 :: rest1 =>
        if isCont c1 then
          (utf8DecodeStrict rest1).map (Char.ofNat ((b - 0xC0) * 64 + (c1 - 0x80)) :: ·)
        else none
    else if 0xE0 ≤ b ∧ b ≤ 0xEF then
      match rest with
      | c1 :: c2 :: rest2 =>
        if isContFor b c1 && isCont c2 then
          (utf8DecodeStrict rest2).map
            (Char.ofNat ((b - 0xE0) * 4096 + (c1 - 0x80) * 64 + (c2 - 0x80)) :: ·)
        else none
      | _ => none
    else if 0xF0 ≤ b ∧ b ≤ 0xF4 then
      match rest with
      | c1 :: c2 :: c3 :: rest3 =>
        if isContFor b c1 && isCont c2 && isCont c3 then
          (utf8DecodeStrict rest3).map
            (Char.ofNat ((b - 0xF0) * 262144 + (c1 - 0x80) * 4096 + (c2 - 0x80) * 64 +
              (c3 - 0x80)) :: ·)
        else none
      | _ => none
    else none

/-- Tokenize a string into literal characters and `%HH` escape bytes,
failing on a `%` not followed by two hex digits (`decodeURIComponent`
throws `URIError` there). -/
def pctTokens : Str → Option (List (Char ⊕ Nat))
  | [] => some []
  | '%' :: h1 :: h2 :: rest =>
    if isHexDigit h1 && isHexDigit h2 then
      (pctTokens rest).map (Sum.inr (hexVal h1 * 16 + hexVal h2) :: ·)
    else none
  | '%' :: _ => none
  | c :: rest => (pctTokens rest).map (Sum.inl c :: ·)

/-- Decode a token stream strictly: each maximal run of escape bytes must
form valid UTF-8 (`acc` holds the reversed pending run). -/
def decodeTokensStrictGo : List Nat → List (Char ⊕ Nat) → Option Str
  | acc, [] => utf8DecodeStrict acc.reverse
  | acc, Sum.inr b :: rest => decodeTokensStrictGo (b :: acc) rest
  | acc, Sum.inl c :: rest =>
    match utf8DecodeStrict acc.reverse with
    | none => none
    | some cs => (decodeTokensStrictGo [] rest).map (fun tail => cs ++ c :: tail)

/-- `decodeURIComponent` (ECMAScript `Decode`): percent-decode with strict
UTF-8 validation; `none` models the `URIError` throw. -/
def decodeURIComponentM (s : Str) : Option Str :=
  match pctTokens s with
  | none => none
  | some toks => decodeTokensStrictGo [] toks

/-- Tokenize per `application/x-www-form-urlencoded` parsing (used by
`URLSearchParams`): `+` means space, malformed `%` escapes stay literal. -/
def formTokens : Str → List (Char ⊕ Nat)
  | [] => []
  | '%' :: h1 :: h2 :: rest =>
    if isHexDigit h1 && isHexDigit h2 then
      Sum.inr (hexVal h1 * 16 + hexVal h2) :: formTokens rest
    else Sum.inl '%' :: formTokens (h1 :: h2 :: rest)
  | '+' :: rest => Sum.inl ' ' :: formTokens rest
  | c :: rest => Sum.inl c :: formTokens rest

/-- Decode a token stream leniently (escape-byte runs decoded with U+FFFD
replacement, never failing). -/
def decodeTokensLenientGo : List Nat → List (Char ⊕ Nat) → Str
  | acc, [] => utf8DecodeLenient acc.reverse
  | acc, Sum.inr b :: rest => decodeTokensLenientGo (b :: acc) rest
  | acc, Sum.inl c :: rest => utf8DecodeLenient acc.reverse ++ c :: decodeTokensLenientGo [] rest

/-- Form-urlencoded decoding of a query component (total). -/
def formDecode (s : Str) : Str := decodeTokensLenientGo [] (formTokens s)

/-- The fragment as the WHATWG `URL.hash` getter reports it: `""` when
there is no fragment or it is empty, else `#` plus the fragment. Models
the external URL API used for `obsidian://` deep links. -/
def urlHash (raw : Str) : Str :=
  match raw.dropWhile (fun c => !(c == '#')) with
  | [] => []
  | _ :: rest => if rest = [] then [] else '#' :: rest

/-- The query component (between `?` and the fragment), without the `?`. -/
def urlQuery (raw : Str) : Str :=
  ((raw.takeWhile (fun c => !(c == '#'))).dropWhile (fun c => !(c == '?'))).drop 1

/-- `URLSearchParams.get(name)`: first `name=value` pair of the query,
form-urlencoded decoded; empty pairs are skipped. Models the external URL
API (whose constructor does not throw on `obsidian://` inputs). -/
def searchParamsGet (name query : Str) : Option Str :=
  match ((query.splitOn '&').filter (fun p => !(p.isEmpty))).find?
      (fun p => formDecode (p.takeWhile (fun c => !(c == '='))) == name) with
  | some p => some (formDecode ((p.dropWhile (fun c => !(c == '='))).drop 1))
  | none => none

/-- The `obsidian://` branch of `parseEpubCfi64Link` (lines 47-55): read
the `file` query parameter, and when it is present and non-empty, rewrite
`raw` to `decodeURIComponent(file) + hash`; any failure inside the `try`
(including a `URIError` from `decodeURIComponent`) leaves `raw`
unchanged. -/
def obsidianRewrite (raw : Str) : Str :=
  match searchParamsGet ("file".toList) (urlQuery raw) with
  | some fileParam =>
    if fileParam = [] then raw
    else
      match decodeURIComponentM fileParam with
      | some decoded => decoded ++ urlHash raw
      | none => raw
  | none => raw

/-- `raw` after the deep-link branch (applied only to `obsidian://`
prefixes, line 47). -/
def rewrittenRaw (s : Str) : Str :=
  if "obsidian://".toList <+: s then obsidianRewrite s else s

/-- The pre-fragment component `raw.split("#", 2)[0]` (line 57). -/
def pathPartRawOf (s : Str) : Str := ((rewrittenRaw s).splitOn '#').getD 0 []

/-- The first fragment component `raw.split("#", 2)[1]` (line 57);
`[]` stands for both the missing and the empty component (both falsy). -/
def hashRawOf (s : Str) : Str := ((rewrittenRaw s).splitOn '#').getD 1 []

/-- ASCII lowercasing; `toLowerCase` agrees with it on the `.epub` suffix
test, since no non-ASCII character lowercases into that suffix. -/
def asciiLower (c : Char) : Char :=
  if 'A' ≤ c ∧ c ≤ 'Z' then Char.ofNat (c.toNat + 32) else c

deriving instance DecidableEq for Except

/-- The parsed `{ path, cfi64 }` pair. -/
structure EpubLink where
  path : Str
  cfi64 : Str
deriving DecidableEq

/-- `parseEpubCfi64Link` (src/unnamed/part_004 lines 42-67). `Except.error`
models an uncaught JavaScript exception escaping the function — the
`decodeURIComponent(pathPartRaw)` call at line 58 is not inside any
`try`. -/
def parseEpubCfi64Link (hrefOrDataHref : Str) : Except Unit (Option EpubLink) :=
  if hrefOrDataHref = [] then Except.ok none
  else
    match decodeURIComponentM (pathPartRawOf hrefOrDataHref) with
    | none => Except.error ()
    | some pathPart =>
      if ".epub".toList <:+ pathPart.map asciiLower then
        if hashRawOf hrefOrDataHref = [] then Except.ok none
        else
          match (extractTokensAfter ("cfi64=".toList) (hashRawOf hrefOrDataHref)).head? with
          | none => Except.ok none
          | some tok => Except.ok (some (EpubLink.mk (normalizePathM pathPart) tok))
      else Except.ok none

/-- C8 counterexample: `parseEpubCfi64Link` is not total — on the input
`%` the unguarded `decodeURIComponent(pathPartRaw)` at line 58 throws a
`URIError` which escapes the function. -/
theorem c8_counterexample : parseEpubCfi64Link ['%'] = Except.error () := by decide

/-- C8 (amended): `parseEpubCfi64Link` is pure, and total on every input
whose pre-fragment path component (after the deep-link rewrite)
percent-decodes successfully — on those it returns null for every
non-matching shape and the `{path, token}` pair otherwise (the spec's
literal parse table holds); it raises `URIError` exactly when that
component holds a malformed percent-escape. -/
theorem c8_parser_total_on_decodable :
    (∀ s : Str, (decodeURIComponentM (pathPartRawOf s)).isSome →
      ∃ r, parseEpubCfi64Link s = Except.ok r) ∧
    parseEpubCfi64Link ("Book.epub#cfi64=abc123".toList) =
      Except.ok (some (EpubLink.mk ("Book.epub".toList) ("abc123".toList))) ∧
    parseEpubCfi64Link ("Notes/Book.epub#cfi64=Zg_9".toList) =
      Except.ok (some (EpubLink.mk ("Notes/Book.epub".toList) ("Zg_9".toList))) ∧
    parseEpubCfi64Link ("Book.pdf#cfi64=abc".toList) = Except.ok none ∧
    parseEpubCfi64Link ("Book.epub".toList) = Except.ok none ∧
    parseEpubCfi64Link ("obsidian://open?file=Book.epub#cfi64=xyz".toList) =
      Except.ok (some (EpubLink.mk ("Book.epub".toList) ("xyz".toList))) := by
  refine ⟨?_, by decide, by decide, by decide, by decide, by decide⟩
  intro s hs
  unfold parseEpubCfi64Link
  by_cases he : s = []
  · rw [if_pos he]
    exact ⟨none, rfl⟩
  · rw [if_neg he]
    cases hd : decodeURIComponentM (pathPartRawOf s) with
    | none =>
      rw [hd] at hs
      cases hs
    | some pathPart =>
      simp only []
      split_ifs with hext hhash
      · exact ⟨none, rfl⟩
      · cases hh : (extractTokensAfter ("cfi64=".toList) (hashRawOf s)).head? with
        | none => exact ⟨none, rfl⟩
        | some tok =>
          exact ⟨some (EpubLink.mk (normalizePathM pathPart) tok), rfl⟩
      · exact ⟨none, rfl⟩

/-- Witness for C8 at a concrete decodable input. -/
theorem c8_parser_total_on_decodable_witness :
    ∃ r, parseEpubCfi64Link ("A.epub#cfi64=t0".toList) = Except.ok r :=
  c8_parser_total_on_decodable.1 ("A.epub#cfi64=t0".toList) (by decide)
